import Mathlib

set_option maxRecDepth 100000

/-!
Verification development for the gemu-c discrete-event cluster simulator.

The repository has two variants sharing one tick structure
(traceall; add_remove; run_send; schedule):
  * `src/ar-sim.c`    — advance-reservation (AR) scheduling with a FIFO
    reservation queue per resource;
  * `src/mixed-sim.c` — mixed FCFS+LWF scoring with a direct job→resource
    binding.

The embedding below translates both programs.  C linked lists become Lean
lists in the same order (head = list head in the source).  Pointer-carried
job references become job codes resolved against the job pool; the source
mutates a node through a pointer, the embedding rewrites the pool entry
with the same code (codes are unique for reachable states, which the
invariant proofs establish where needed).  `random()` becomes an explicit
draw list inside the state, popped one value per `random()` call, in source
call order; an exhausted list yields 0, so every finite behaviour of the C
program with some draw sequence is the behaviour of the model with that
sequence as the initial list.  `malloc` failure paths (which merely skip the
creation) are modelled as always succeeding.  The C `float` fields
`total_time`/`used_time` only ever hold the integers 0,1,2,... (they are
incremented by 1 and otherwise only read), so they are embedded as `Nat`.
The floating-point running means `mean_usage`/`mean_wait_time` and the
snapshot file written by `record_mean_usage` feed no control flow and no
claim below concerns them, so they are not carried in the state.
-/

/-- MAX_JOBS from both sources: when this many jobs are done, the run ends. -/
def MAX_JOBS : Nat := 100000

/-- RECORD_INTERVAL from both sources (snapshot cadence; statistics only). -/
def RECORD_INTERVAL : Nat := 500

/-- RL_PROB from both sources: departure draw threshold at job completion. -/
def RL_PROB : Nat := 300

/-- ADD_RESOURCE_PROB in src/ar-sim.c. -/
def AR_ADD_RESOURCE_PROB : Nat := 50

/-- ADD_JOB_PROB in src/ar-sim.c. -/
def AR_ADD_JOB_PROB : Nat := 50

/-- ADD_RESOURCE_PROB in src/mixed-sim.c. -/
def MX_ADD_RESOURCE_PROB : Nat := 50

/-- ADD_JOB_PROB in src/mixed-sim.c. -/
def MX_ADD_JOB_PROB : Nat := 800

/-- FCFS_W in src/mixed-sim.c. -/
def FCFS_W : Int := 1

/-- LWF_W in src/mixed-sim.c. -/
def LWF_W : Int := 1

/-- Pop one value from the draw list (one `random()` call); 0 when exhausted. -/
def randDraw : List Nat → Nat × List Nat
  | [] => (0, [])
  | x :: g => (x, g)

/-- Outcome of the creation decision in `add_remove` for the draw `i`. -/
inductive AddPick
  | addRes
  | addJob
  | skip
deriving DecidableEq, Repr

/-- The branch structure of `add_remove` in both sources, on `i = 1 + random()%1000`:
`if (i <= ADD_RESOURCE_PROB) add_res(); else if (i > ADD_JOB_PROB) add_job();`. -/
def addDecision (rp jp i : Nat) : AddPick :=
  if i ≤ rp then AddPick.addRes
  else if jp < i then AddPick.addJob
  else AddPick.skip

/-- Generic first-index search: `firstIdxGo p k l` returns the index (counting
from `k`) and value of the first element of `l` satisfying `p`. -/
def firstIdxGo {α : Type} (p : α → Bool) : Nat → List α → Option (Nat × α)
  | _, [] => none
  | k, x :: rest => if p x then some (k, x) else firstIdxGo p (k + 1) rest

/-- Rewrite the element at one position, as the source rewrites one node. -/
def modifyAt {α : Type} : Nat → (α → α) → List α → List α
  | _, _, [] => []
  | 0, f, x :: t => f x :: t
  | n + 1, f, x :: t => x :: modifyAt n f t

/- ===================== AR variant (src/ar-sim.c) ===================== -/

/-- Resource states of src/ar-sim.c. -/
inductive ARRSt
  | AVAILABLE
  | HAS_JOBS
  | LEAVING
  | NO_ACCEPT_JOBS
deriving DecidableEq, Repr

/-- Job states of src/ar-sim.c. -/
inductive ARJSt
  | WAITING
  | RUNNING
  | DONE
  | SENDING_DATA
  | WAITING_TO_SEND_DATA
  | READY_TO_RUN
deriving DecidableEq, Repr

/-- `struct resource` of src/ar-sim.c; the reservation queue is the list of
queued job codes, head first (`first_rsv` ... `last_rsv`). -/
structure ARResource where
  code : Nat
  state : ARRSt
  level : Nat
  total_time : Nat
  used_time : Nat
  total_workload : Int
  queue : List Nat
deriving DecidableEq, Repr

/-- `struct job` of src/ar-sim.c (its `run_on` field is never written in the
AR variant after the NULL initialisation, so it is not carried). -/
structure ARJob where
  code : Nat
  state : ARJSt
  workload : Int
  send_data : Int
  wait_time : Nat
deriving DecidableEq, Repr

/-- Global state of src/ar-sim.c (pools, counters, the `begin` static of
`add_remove`, and the pending `random()` draws). -/
structure ARState where
  resources : List ARResource
  jobs : List ARJob
  resource_number : Nat
  job_number : Nat
  jobs_done : Nat
  rng : List Nat
  begin_flag : Bool
deriving DecidableEq, Repr

/-- Dereference a reservation's job pointer: first pool entry with the code. -/
def findJob (c : Nat) (pool : List ARJob) : Option ARJob :=
  pool.find? (fun x => x.code = c)

/-- Mutate the pool entry (entries) carrying code `c`, as the source mutates
the job node through the reservation pointer. -/
def updateJob (c : Nat) (f : ARJob → ARJob) (pool : List ARJob) : List ARJob :=
  pool.map (fun x => if x.code = c then f x else x)

/-- `add_res` of src/ar-sim.c: one level draw, fresh code, appended at tail. -/
def arAddRes (s : ARState) : ARState :=
  let (d, g) := randDraw s.rng
  let r : ARResource :=
    { code := s.resource_number + 1, state := ARRSt.AVAILABLE, level := 1 + d % 5,
      total_time := 0, used_time := 0, total_workload := 0, queue := [] }
  { s with resources := s.resources ++ [r],
           resource_number := s.resource_number + 1, rng := g }

/-- `add_job` of src/ar-sim.c: workload draw then send_data draw, appended. -/
def arAddJob (s : ARState) : ARState :=
  let (d1, g1) := randDraw s.rng
  let (d2, g2) := randDraw g1
  let jb : ARJob :=
    { code := s.job_number + 1, state := ARJSt.WAITING,
      workload := (50 + d1 % 950 : Nat), send_data := (d2 % 30 : Nat), wait_time := 0 }
  { s with jobs := s.jobs ++ [jb], job_number := s.job_number + 1, rng := g2 }

/-- `add_remove` of src/ar-sim.c: seed five resources on the first call,
purge DONE jobs and LEAVING resources order-preservingly, then decide on a
single draw whether to add a resource, add a job, or neither. -/
def arAddRemove (s : ARState) : ARState :=
  let s :=
    if s.begin_flag then
      { arAddRes (arAddRes (arAddRes (arAddRes (arAddRes s)))) with begin_flag := false }
    else s
  let s := { s with jobs := s.jobs.filter (fun jb => jb.state ≠ ARJSt.DONE) }
  let s := { s with resources := s.resources.filter (fun r => r.state ≠ ARRSt.LEAVING) }
  let (d, g) := randDraw s.rng
  let s := { s with rng := g }
  match addDecision AR_ADD_RESOURCE_PROB AR_ADD_JOB_PROB (1 + d % 1000) with
  | AddPick.addRes => arAddRes s
  | AddPick.addJob => arAddJob s
  | AddPick.skip => s

/-- Resource acceptance test of the AR scheduler: `r->state != NO_ACCEPT_JOBS`. -/
def arAccept (r : ARResource) : Bool :=
  decide (r.state ≠ ARRSt.NO_ACCEPT_JOBS)

/-- Second loop of the AR `schedule`: running minimum of `total_workload`
over accepting resources with a strict comparison, so the earliest resource
wins ties. -/
def bestResGo (best : ARResource) : List ARResource → ARResource
  | [] => best
  | r :: rest =>
      bestResGo (if arAccept r ∧ r.total_workload < best.total_workload then r else best) rest

/-- Both selection loops of the AR `schedule`: first accepting resource as
the initial candidate, then the strict running minimum over the rest. -/
def selectBestRes : List ARResource → Option ARResource
  | [] => none
  | r :: rest => if arAccept r then some (bestResGo r rest) else selectBestRes rest

/-- Rewrite the first list entry equal to `old`, as the source mutates the
selected node in place (selection always returns a list member). -/
def replaceFirstRes (old new : ARResource) : List ARResource → List ARResource
  | [] => []
  | r :: rest => if r = old then new :: rest else r :: replaceFirstRes old new rest

/-- `schedule` of src/ar-sim.c: take the first WAITING job; pick the
accepting resource of least `total_workload`; bind by appending a
reservation at the queue tail, adding the job's workload to the resource's
`total_workload`, and moving the job to WAITING_TO_SEND_DATA.  The
reservation `malloc` is modelled as succeeding. -/
def arSchedule (s : ARState) : ARState :=
  match firstIdxGo (fun jb => jb.state = ARJSt.WAITING) 0 s.jobs with
  | none => s
  | some (ji, bj) =>
    match selectBestRes s.resources with
    | none => s
    | some br =>
      let br' : ARResource :=
        { br with state := ARRSt.HAS_JOBS,
                  total_workload := br.total_workload + bj.workload,
                  queue := br.queue ++ [bj.code] }
      { s with
        jobs := modifyAt ji (fun jb => { jb with state := ARJSt.WAITING_TO_SEND_DATA }) s.jobs,
        resources := replaceFirstRes br br' s.resources }

/-- Input-data phase of the AR `run_send` for one resource: walk the queue,
act on the first job found SENDING_DATA (count its transfer down; at zero it
becomes READY_TO_RUN and the next queued job starts SENDING_DATA) or found
WAITING_TO_SEND_DATA (it starts SENDING_DATA), then stop. -/
def arSendPhase : List Nat → List ARJob → List ARJob
  | [], pool => pool
  | c :: t, pool =>
    match findJob c pool with
    | none => arSendPhase t pool
    | some jb =>
      if jb.state = ARJSt.SENDING_DATA then
        let sd := jb.send_data - 1
        let pool := updateJob c (fun x => { x with send_data := sd }) pool
        if sd ≤ 0 then
          let pool := updateJob c (fun x => { x with state := ARJSt.READY_TO_RUN }) pool
          match t with
          | [] => pool
          | c2 :: _ => updateJob c2 (fun x => { x with state := ARJSt.SENDING_DATA }) pool
        else pool
      else if jb.state = ARJSt.WAITING_TO_SEND_DATA then
        updateJob c (fun x => { x with state := ARJSt.SENDING_DATA }) pool
      else arSendPhase t pool

/-- Result of the AR `run_send` body for one resource: updated pool,
updated resource, remaining draws, and the code popped from the queue head
if the head job completed. -/
structure ARStepOut where
  pool : List ARJob
  res : ARResource
  rng : List Nat
  popped : Option Nat
deriving Repr

/-- Body of the AR `run_send` loop for one resource: a drained
NO_ACCEPT_JOBS resource turns LEAVING; otherwise the queue head job is
advanced (RUNNING consumes `level` work units, completes on a strictly
negative remainder and is popped, with a departure draw; READY_TO_RUN
starts RUNNING), and then the data-send phase walks the (possibly popped)
queue. -/
def arResStep (pool : List ARJob) (res : ARResource) (rng : List Nat) : ARStepOut :=
  let res :=
    if res.state = ARRSt.NO_ACCEPT_JOBS ∧ res.queue = [] then
      { res with state := ARRSt.LEAVING }
    else res
  match res.queue with
  | [] => ⟨pool, res, rng, none⟩
  | c :: t =>
    let out : ARStepOut :=
      match findJob c pool with
      | none => ⟨pool, res, rng, none⟩
      | some jb =>
        match jb.state with
        | ARJSt.RUNNING =>
          let w' := jb.workload - (res.level : Int)
          let pool := updateJob c (fun x => { x with workload := w' }) pool
          let res := { res with total_workload := res.total_workload - (res.level : Int),
                                used_time := res.used_time + 1 }
          if w' < 0 then
            let pool := updateJob c (fun x => { x with state := ARJSt.DONE }) pool
            let res := { res with queue := t }
            let (d, g) := randDraw rng
            let res :=
              if d % 1000 ≤ RL_PROB then { res with state := ARRSt.NO_ACCEPT_JOBS } else res
            ⟨pool, res, g, some c⟩
          else ⟨pool, res, rng, none⟩
        | ARJSt.READY_TO_RUN =>
          ⟨updateJob c (fun x => { x with state := ARJSt.RUNNING }) pool, res, rng, none⟩
        | _ => ⟨pool, res, rng, none⟩
    ⟨arSendPhase out.res.queue out.pool, out.res, out.rng, out.popped⟩

/-- The AR `run_send` loop over all resources, threading pool and draws. -/
def arRunGo : List ARResource → List ARJob → List Nat →
    List ARResource × List ARJob × List Nat
  | [], pool, g => ([], pool, g)
  | r :: rest, pool, g =>
    let o := arResStep pool r g
    let (rest', pool', g') := arRunGo rest o.pool o.rng
    (o.res :: rest', pool', g')

/-- `run_send` of src/ar-sim.c. -/
def arRunSend (s : ARState) : ARState :=
  let (rs, pool, g) := arRunGo s.resources s.jobs s.rng
  { s with resources := rs, jobs := pool, rng := g }

/-- Per-job part of the AR `traceall`: WAITING, WAITING_TO_SEND_DATA and
READY_TO_RUN jobs age by one tick. -/
def arJobTrace (jb : ARJob) : ARJob :=
  if jb.state = ARJSt.WAITING ∨ jb.state = ARJSt.WAITING_TO_SEND_DATA ∨
      jb.state = ARJSt.READY_TO_RUN then
    { jb with wait_time := jb.wait_time + 1 }
  else jb

/-- `traceall` of src/ar-sim.c: age not-yet-running jobs, count DONE jobs
into `jobs_done`, give every resource one more `total_time` tick, and
report whether `jobs_done >= MAX_JOBS` fired `exit(0)` (the utilization and
wait-time means folded here feed no control flow and are omitted). -/
def arTraceall (s : ARState) : ARState × Bool :=
  let jd := s.jobs_done + s.jobs.countP (fun jb => jb.state = ARJSt.DONE)
  ({ s with jobs := s.jobs.map arJobTrace,
            resources := s.resources.map (fun r => { r with total_time := r.total_time + 1 }),
            jobs_done := jd },
   decide (MAX_JOBS ≤ jd))

/-- One iteration of the main loop of src/ar-sim.c; `none` means the
process exited during the trace step. -/
def arTick (s : ARState) : Option ARState :=
  let (s1, ex) := arTraceall s
  if ex then none else some (arSchedule (arRunSend (arAddRemove s1)))

/-- Process start state of src/ar-sim.c with draw list `g`. -/
def arInit (g : List Nat) : ARState :=
  { resources := [], jobs := [], resource_number := 0, job_number := 0,
    jobs_done := 0, rng := g, begin_flag := true }

/-- Iterated ticks, stopping with `none` if the process exits. -/
def arTickN : Nat → ARState → Option ARState
  | 0, s => some s
  | n + 1, s =>
    match arTick s with
    | none => none
    | some s' => arTickN n s'

/-- Sum of the remaining workloads of the jobs whose reservations form the
queue `q`, read from the job pool (0 for a dangling code). -/
def queuedSum (pool : List ARJob) (q : List Nat) : Int :=
  (q.map (fun c => match findJob c pool with | some jb => jb.workload | none => 0)).sum

/-- States of src/ar-sim.c reachable from process start by whole ticks. -/
inductive ARReach : ARState → Prop
  | init (g : List Nat) : ARReach (arInit g)
  | step {s s' : ARState} : ARReach s → arTick s = some s' → ARReach s'

/- ===================== Mixed variant (src/mixed-sim.c) ===================== -/

/-- Resource states of src/mixed-sim.c. -/
inductive MRSt
  | AVAILABLE
  | USED
  | LEAVING
  | RECEIVING_DATA
deriving DecidableEq, Repr

/-- Job states of src/mixed-sim.c. -/
inductive MJSt
  | WAITING
  | RUNNING
  | DONE
  | SENDING_DATA
deriving DecidableEq, Repr

/-- `struct resource` of src/mixed-sim.c. -/
structure MResource where
  code : Nat
  state : MRSt
  level : Nat
  total_time : Nat
  used_time : Nat
deriving DecidableEq, Repr

/-- `struct job` of src/mixed-sim.c; `run_on` holds the code of the bound
resource (`none` for the NULL pointer). -/
structure MJob where
  code : Nat
  state : MJSt
  workload : Int
  send_data : Int
  wait_time : Nat
  run_on : Option Nat
deriving DecidableEq, Repr

/-- Global state of src/mixed-sim.c. -/
structure MState where
  resources : List MResource
  jobs : List MJob
  resource_number : Nat
  job_number : Nat
  jobs_done : Nat
  rng : List Nat
  begin_flag : Bool
deriving DecidableEq, Repr

/-- Dereference a job's `run_on` pointer: first pool entry with the code. -/
def findRes (c : Nat) (rs : List MResource) : Option MResource :=
  rs.find? (fun r => r.code = c)

/-- Mutate the resource entry (entries) carrying code `c`, as the source
mutates the node through `run_on`. -/
def updateRes (c : Nat) (f : MResource → MResource) (rs : List MResource) : List MResource :=
  rs.map (fun r => if r.code = c then f r else r)

/-- `add_res` of src/mixed-sim.c. -/
def mxAddRes (s : MState) : MState :=
  let (d, g) := randDraw s.rng
  let r : MResource :=
    { code := s.resource_number + 1, state := MRSt.AVAILABLE, level := 1 + d % 5,
      total_time := 0, used_time := 0 }
  { s with resources := s.resources ++ [r],
           resource_number := s.resource_number + 1, rng := g }

/-- `add_job` of src/mixed-sim.c. -/
def mxAddJob (s : MState) : MState :=
  let (d1, g1) := randDraw s.rng
  let (d2, g2) := randDraw g1
  let jb : MJob :=
    { code := s.job_number + 1, state := MJSt.WAITING,
      workload := (50 + d1 % 950 : Nat), send_data := (d2 % 30 : Nat),
      wait_time := 0, run_on := none }
  { s with jobs := s.jobs ++ [jb], job_number := s.job_number + 1, rng := g2 }

/-- `add_remove` of src/mixed-sim.c: identical shape to the AR variant but
with the mixed thresholds (50 and 800 out of 1000). -/
def mxAddRemove (s : MState) : MState :=
  let s :=
    if s.begin_flag then
      { mxAddRes (mxAddRes (mxAddRes (mxAddRes (mxAddRes s)))) with begin_flag := false }
    else s
  let s := { s with jobs := s.jobs.filter (fun jb => jb.state ≠ MJSt.DONE) }
  let s := { s with resources := s.resources.filter (fun r => r.state ≠ MRSt.LEAVING) }
  let (d, g) := randDraw s.rng
  let s := { s with rng := g }
  match addDecision MX_ADD_RESOURCE_PROB MX_ADD_JOB_PROB (1 + d % 1000) with
  | AddPick.addRes => mxAddRes s
  | AddPick.addJob => mxAddJob s
  | AddPick.skip => s

/-- Job score of the mixed scheduler: `FCFS_W*wait_time + LWF_W*workload`. -/
def mxScore (jb : MJob) : Int :=
  FCFS_W * (jb.wait_time : Int) + LWF_W * jb.workload

/-- Selection loop of the mixed `schedule`, exactly as in the source: the
candidate index is replaced by any later WAITING job whose score strictly
exceeds `bestScore`, and `bestScore` is never updated (it stays the first
WAITING job's score throughout — the source never assigns to it inside the
loop), so this is not a running maximum. -/
def mxBestGo (bestIdx : Nat) (bestScore : Int) : Nat → List MJob → Nat
  | _, [] => bestIdx
  | k, jb :: rest =>
    if jb.state = MJSt.WAITING ∧ bestScore < mxScore jb then
      mxBestGo k bestScore (k + 1) rest
    else
      mxBestGo bestIdx bestScore (k + 1) rest

/-- `schedule` of src/mixed-sim.c: first AVAILABLE resource, first WAITING
job as default candidate, then the selection loop starting at that job;
the chosen job is bound directly (`run_on`), moved to SENDING_DATA, and
the resource moves to RECEIVING_DATA. -/
def mxSchedule (s : MState) : MState :=
  match firstIdxGo (fun r => r.state = MRSt.AVAILABLE) 0 s.resources with
  | none => s
  | some (ri, r0) =>
    match firstIdxGo (fun jb => jb.state = MJSt.WAITING) 0 s.jobs with
    | none => s
    | some (ji, j0) =>
      let bi := mxBestGo ji (mxScore j0) ji (s.jobs.drop ji)
      { s with
        jobs := modifyAt bi
          (fun jb => { jb with run_on := some r0.code, state := MJSt.SENDING_DATA }) s.jobs,
        resources := modifyAt ri (fun r => { r with state := MRSt.RECEIVING_DATA }) s.resources }

/-- Result of the mixed `run_send` body for one job. -/
structure MStepOut where
  job : MJob
  resources : List MResource
  rng : List Nat
deriving Repr

/-- Body of the mixed `run_send` loop for one job: SENDING_DATA counts the
transfer down and at zero the job starts RUNNING with its resource USED;
RUNNING consumes the resource's `level`, books one `used_time` tick, and on
a non-positive remainder the job is DONE, its resource returns AVAILABLE
and then may draw to leave.  The `run_on` dereferences cannot fail in the C
program; the fallback branches here are unreachable for reachable states
(established by the safety invariant below). -/
def mxJobStep (jb : MJob) (rs : List MResource) (g : List Nat) : MStepOut :=
  match jb.state with
  | MJSt.SENDING_DATA =>
    let sd := jb.send_data - 1
    if sd ≤ 0 then
      let rs :=
        match jb.run_on with
        | some c => updateRes c (fun r => { r with state := MRSt.USED }) rs
        | none => rs
      ⟨{ jb with send_data := sd, state := MJSt.RUNNING }, rs, g⟩
    else ⟨{ jb with send_data := sd }, rs, g⟩
  | MJSt.RUNNING =>
    (match jb.run_on with
     | none => ⟨jb, rs, g⟩
     | some c =>
       match findRes c rs with
       | none => ⟨jb, rs, g⟩
       | some r0 =>
         let w' := jb.workload - (r0.level : Int)
         let rs := updateRes c (fun r => { r with used_time := r.used_time + 1 }) rs
         if w' ≤ 0 then
           let rs := updateRes c (fun r => { r with state := MRSt.AVAILABLE }) rs
           let (d, g') := randDraw g
           let rs :=
             if d % 1000 ≤ RL_PROB then
               updateRes c (fun r => { r with state := MRSt.LEAVING }) rs
             else rs
           ⟨{ jb with workload := w', state := MJSt.DONE }, rs, g'⟩
         else ⟨{ jb with workload := w' }, rs, g⟩)
  | _ => ⟨jb, rs, g⟩

/-- The mixed `run_send` loop over all jobs, threading resources and draws. -/
def mxRunGo : List MJob → List MResource → List Nat →
    List MJob × List MResource × List Nat
  | [], rs, g => ([], rs, g)
  | jb :: rest, rs, g =>
    let o := mxJobStep jb rs g
    let (rest', rs', g') := mxRunGo rest o.resources o.rng
    (o.job :: rest', rs', g')

/-- `run_send` of src/mixed-sim.c. -/
def mxRunSend (s : MState) : MState :=
  let (jobs, rs, g) := mxRunGo s.jobs s.resources s.rng
  { s with jobs := jobs, resources := rs, rng := g }

/-- Per-job part of the mixed `traceall`: only WAITING jobs age. -/
def mxJobTrace (jb : MJob) : MJob :=
  if jb.state = MJSt.WAITING then { jb with wait_time := jb.wait_time + 1 } else jb

/-- `traceall` of src/mixed-sim.c: age WAITING jobs, count DONE jobs, give
every resource one `total_time` tick, and report whether
`jobs_done == MAX_JOBS` (an equality test, unlike the AR variant's `>=`)
fired `exit(0)`. -/
def mxTraceall (s : MState) : MState × Bool :=
  let jd := s.jobs_done + s.jobs.countP (fun jb => jb.state = MJSt.DONE)
  ({ s with jobs := s.jobs.map mxJobTrace,
            resources := s.resources.map (fun r => { r with total_time := r.total_time + 1 }),
            jobs_done := jd },
   decide (jd = MAX_JOBS))

/-- One iteration of the main loop of src/mixed-sim.c. -/
def mxTick (s : MState) : Option MState :=
  let (s1, ex) := mxTraceall s
  if ex then none else some (mxSchedule (mxRunSend (mxAddRemove s1)))

/-- Process start state of src/mixed-sim.c with draw list `g`. -/
def mxInit (g : List Nat) : MState :=
  { resources := [], jobs := [], resource_number := 0, job_number := 0,
    jobs_done := 0, rng := g, begin_flag := true }

/-- Iterated ticks, stopping with `none` if the process exits. -/
def mxTickN : Nat → MState → Option MState
  | 0, s => some s
  | n + 1, s =>
    match mxTick s with
    | none => none
    | some s' => mxTickN n s'

/-- The state on which the mixed executor (`run_send`) runs within the tick
of `s`: after the trace step and the add/remove step. -/
def mxPreExec (s : MState) : MState :=
  mxAddRemove (mxTraceall s).fst

/-- A job bound to a resource: SENDING_DATA or RUNNING. -/
def mjLive (jb : MJob) : Prop :=
  jb.state = MJSt.SENDING_DATA ∨ jb.state = MJSt.RUNNING

/-- Pointer safety for one job: a SENDING_DATA job's `run_on` is the code of
a pool resource in RECEIVING_DATA, a RUNNING job's the code of a pool
resource in USED. -/
def mjSafe (jb : MJob) (rs : List MResource) : Prop :=
  (jb.state = MJSt.SENDING_DATA →
    ∃ r ∈ rs, jb.run_on = some r.code ∧ r.state = MRSt.RECEIVING_DATA) ∧
  (jb.state = MJSt.RUNNING →
    ∃ r ∈ rs, jb.run_on = some r.code ∧ r.state = MRSt.USED)

/-- Pointer safety for a whole mixed state. -/
def MixedSafe (s : MState) : Prop :=
  ∀ jb ∈ s.jobs, mjSafe jb s.resources

/-- States of src/mixed-sim.c reachable from process start by whole ticks. -/
inductive MixedReach : MState → Prop
  | init (g : List Nat) : MixedReach (mxInit g)
  | step {s s' : MState} : MixedReach s → mxTick s = some s' → MixedReach s'

/- ===================== Concrete executions and inputs ===================== -/

/-- Draw list for an AR run: five level-5 resources, one job with workload 50
and zero transfer time on the first tick, and a resource-add draw on every
later tick (so no further jobs arrive). -/
def c3draws : List Nat := [4, 4, 4, 4, 4, 50, 0, 0] ++ List.replicate 26 0

/-- Draw list for an AR run identical to `c3draws` except that the single
job's workload is 53 (not a multiple of the level 5) and the completion
tick's departure draw (999) keeps the resource accepting. -/
def c6draws : List Nat := [4, 4, 4, 4, 4, 50, 3, 0] ++ List.replicate 26 0 ++ [0, 0, 999]

/-- Draw list for one mixed tick: five level-1 resources and one job with
workload 50 and zero transfer time, bound by the tick's schedule step. -/
def c10draws : List Nat := [0, 0, 0, 0, 0, 800, 0, 0]

/-- Draw list for one AR tick: five seeded resources plus one added by the
creation draw. -/
def c7draws : List Nat := [0, 0, 0, 0, 0, 0]

/-- A mixed state at a trace step with `jobs_done` one short of `MAX_JOBS`
and two jobs that completed during the previous tick's executor pass. -/
def mxOvershoot : MState :=
  { resources := [],
    jobs := [⟨1, MJSt.DONE, 0, 0, 0, none⟩, ⟨2, MJSt.DONE, 0, 0, 0, none⟩],
    resource_number := 0, job_number := 2, jobs_done := MAX_JOBS - 1,
    rng := [], begin_flag := false }

/-- WAITING job for the mixed-scheduler evaluation, with zero wait time. -/
def c1job (c : Nat) (w : Int) : MJob :=
  ⟨c, MJSt.WAITING, w, 5, 0, none⟩

/-- Mixed state with one AVAILABLE resource and three WAITING jobs whose
scores are 10, 20 and 15 in pool order. -/
def c1state : MState :=
  { resources := [⟨1, MRSt.AVAILABLE, 1, 0, 0⟩],
    jobs := [c1job 1 10, c1job 2 20, c1job 3 15],
    resource_number := 1, job_number := 3, jobs_done := 0,
    rng := [], begin_flag := false }

/- ===================== C1 ===================== -/

/-- C1 (code bug, evaluated): with WAITING jobs of scores 10, 20, 15 in pool
order and an AVAILABLE resource, the mixed `schedule` of src/mixed-sim.c
binds the THIRD job (score 15), not the maximal-score second job (score 20):
the source computes `best_score` from the first WAITING job and never
updates it inside the selection loop, so any later job beating the FIRST
job's score replaces the candidate, and the last such job wins. -/
theorem spec_c1_mixed_score_bug :
    (mxSchedule c1state).jobs.map (fun jb => (jb.code, jb.state)) =
      [(1, MJSt.WAITING), (2, MJSt.WAITING), (3, MJSt.SENDING_DATA)] ∧
    mxScore (c1job 3 15) < mxScore (c1job 2 20) ∧
    mxBestGo 0 (mxScore (c1job 1 10)) 0 c1state.jobs = 2 := by
  refine ⟨?_, ?_, ?_⟩ <;> decide

/- ===================== C2 ===================== -/

/-- C2 (counterexample): in src/ar-sim.c, of the 1000 possible draws
`i = 1 + random()%1000`, a job is created for 950 of them (every
`i > ADD_JOB_PROB` not claimed by the resource branch), not for
`ADD_JOB_PROB = 50` of them as the claim states. -/
theorem spec_c2_cx :
    ((List.range 1000).map (· + 1)).countP
        (fun i => addDecision AR_ADD_RESOURCE_PROB AR_ADD_JOB_PROB i = AddPick.addJob) = 950 ∧
    decide (950 = AR_ADD_JOB_PROB) = false := by
  refine ⟨?_, ?_⟩ <;> decide

/-- C2 (amended): per tick, exactly one draw decision is taken on
`i = 1 + random()%1000`; a resource is created for exactly
ADD_RESOURCE_PROB of the 1000 draws in both variants, but a job is created
for the draws exceeding both thresholds — 950 of 1000 in the AR variant and
200 of 1000 in the mixed variant, not ADD_JOB_PROB of them — and no draw
creates both a resource and a job. -/
theorem spec_c2_amended :
    ((List.range 1000).map (· + 1)).countP
        (fun i => addDecision AR_ADD_RESOURCE_PROB AR_ADD_JOB_PROB i = AddPick.addRes) =
      AR_ADD_RESOURCE_PROB ∧
    ((List.range 1000).map (· + 1)).countP
        (fun i => addDecision AR_ADD_RESOURCE_PROB AR_ADD_JOB_PROB i = AddPick.addJob) = 950 ∧
    ((List.range 1000).map (· + 1)).countP
        (fun i => addDecision MX_ADD_RESOURCE_PROB MX_ADD_JOB_PROB i = AddPick.addRes) =
      MX_ADD_RESOURCE_PROB ∧
    ((List.range 1000).map (· + 1)).countP
        (fun i => addDecision MX_ADD_RESOURCE_PROB MX_ADD_JOB_PROB i = AddPick.addJob) = 200 ∧
    ((List.range 1000).map (· + 1)).countP
        (fun i => decide (addDecision AR_ADD_RESOURCE_PROB AR_ADD_JOB_PROB i = AddPick.addRes)
          && decide (addDecision AR_ADD_RESOURCE_PROB AR_ADD_JOB_PROB i = AddPick.addJob)) = 0 ∧
    ((List.range 1000).map (· + 1)).countP
        (fun i => decide (addDecision MX_ADD_RESOURCE_PROB MX_ADD_JOB_PROB i = AddPick.addRes)
          && decide (addDecision MX_ADD_RESOURCE_PROB MX_ADD_JOB_PROB i = AddPick.addJob)) = 0 := by
  refine ⟨?_, ?_, ?_, ?_, ?_, ?_⟩ <;> decide

/- ===================== C4 ===================== -/

/-- C4 (code bug, evaluated): at a mixed trace step where two jobs completed
in the previous tick and `jobs_done` stood at MAX_JOBS − 1, the counter
jumps to MAX_JOBS + 1, yet the equality test `jobs_done == MAX_JOBS` of
src/mixed-sim.c line 338 does not fire, so the process does not exit and
keeps ticking although `jobs_done >= MAX_JOBS` (the AR variant's `>=` on
line 383 would have exited here). -/
theorem spec_c4_mixed_exit_bug :
    MAX_JOBS ≤ (mxTraceall mxOvershoot).fst.jobs_done ∧
    (mxTraceall mxOvershoot).snd = false ∧
    mxTick mxOvershoot ≠ none := by
  refine ⟨?_, ?_, ?_⟩ <;> decide

/- ===================== C5 ===================== -/

/-- C5 (counterexample): in the AR run driven by `c3draws`, after two ticks
the only job is in SENDING_DATA with `wait_time = 1`; the trace step of the
third tick leaves its `wait_time` at 1 (and after the full third tick it is
still 1), although the job had not yet reached RUNNING — the claim demands
an increment to 2.  The AR `traceall` ages only WAITING,
WAITING_TO_SEND_DATA and READY_TO_RUN jobs, not SENDING_DATA ones. -/
theorem spec_c5_cx :
    (arTickN 2 (arInit c3draws)).map
        (fun s => s.jobs.map (fun jb => (jb.state, jb.wait_time))) =
      some [(ARJSt.SENDING_DATA, 1)] ∧
    (arTickN 2 (arInit c3draws)).map
        (fun s => (arTraceall s).fst.jobs.map (fun jb => (jb.state, jb.wait_time))) =
      some [(ARJSt.SENDING_DATA, 1)] ∧
    (arTickN 3 (arInit c3draws)).map (fun s => s.jobs.map (fun jb => jb.wait_time)) =
      some [1] := by
  refine ⟨?_, ?_, ?_⟩ <;> decide

/-- C5 (amended): the trace step maps each job individually; in the AR
variant it increments `wait_time` by exactly 1 for jobs in WAITING,
WAITING_TO_SEND_DATA or READY_TO_RUN and leaves RUNNING, DONE and
SENDING_DATA jobs unchanged; in the mixed variant it increments only
WAITING jobs, leaving SENDING_DATA, RUNNING and DONE jobs unchanged. -/
theorem spec_c5_amended :
    (∀ s : ARState, (arTraceall s).fst.jobs = s.jobs.map arJobTrace) ∧
    (∀ s : MState, (mxTraceall s).fst.jobs = s.jobs.map mxJobTrace) ∧
    (∀ jb : ARJob, (arJobTrace jb).wait_time =
      (if jb.state = ARJSt.RUNNING ∨ jb.state = ARJSt.DONE ∨ jb.state = ARJSt.SENDING_DATA
       then jb.wait_time else jb.wait_time + 1)) ∧
    (∀ jb : MJob, (mxJobTrace jb).wait_time =
      (if jb.state = MJSt.WAITING then jb.wait_time + 1 else jb.wait_time)) := by
  refine ⟨fun s => rfl, fun s => rfl, ?_, ?_⟩
  · intro jb
    obtain ⟨c, st, w, sd, wt⟩ := jb
    cases st <;> simp [arJobTrace]
  · intro jb
    obtain ⟨c, st, w, sd, wt, ro⟩ := jb
    cases st <;> simp [mxJobTrace]

/- ===================== C3 (counterexample) ===================== -/

/-- C3 (counterexample): in the AR run driven by `c3draws` (job workload 50,
resource level 5), after 14 ticks the job's workload has just been
decremented to exactly 0 — non-positive — yet its state is still RUNNING,
because src/ar-sim.c line 309 tests `workload < 0`, not `<= 0`; the job
only becomes DONE one tick later at workload −5. -/
theorem spec_c3_cx :
    (arTickN 14 (arInit c3draws)).map
        (fun s => s.jobs.map (fun jb => (jb.state, jb.workload))) =
      some [(ARJSt.RUNNING, (0 : Int))] ∧
    decide ((0 : Int) ≤ 0) = true ∧
    decide (ARJSt.RUNNING = ARJSt.DONE) = false := by
  refine ⟨?_, ?_, ?_⟩ <;> decide

/- ===================== C6 (counterexample) ===================== -/

/-- C6 (counterexample): in the AR run driven by `c6draws` (job workload 53,
resource level 5), after 15 ticks — a tick boundary — the single job has
completed with overshoot −2 and the resource's queue is empty, yet its
`total_workload` is −2, not the queued-workload sum 0: the binding adds the
job's workload but the executor only ever subtracts `level` per tick, so
the overshoot residual is never reconciled. -/
theorem spec_c6_cx :
    (arTickN 15 (arInit c6draws)).map
        (fun s => s.resources.head?.map (fun r => (r.total_workload, r.queue))) =
      some (some ((-2 : Int), ([] : List Nat))) ∧
    (∀ pool : List ARJob, queuedSum pool [] = 0) ∧
    decide ((-2 : Int) = 0) = false := by
  refine ⟨?_, fun pool => rfl, ?_⟩ <;> decide
/- ===================== Pool-update helper lemmas ===================== -/

/-- A found job carries the code it was looked up by. -/
theorem findJob_code {c : Nat} {pool : List ARJob} {jb : ARJob}
    (h : findJob c pool = some jb) : jb.code = c := by
  have := List.find?_some h
  simpa using this

/-- Looking up an untouched code ignores an update of another code
(for field updates that keep the code). -/
theorem findJob_updateJob_ne {c' c : Nat} (f : ARJob → ARJob) {pool : List ARJob}
    (hf : ∀ x, (f x).code = x.code) (hne : c' ≠ c) :
    findJob c' (updateJob c f pool) = findJob c' pool := by
  induction pool with
  | nil => rfl
  | cons x t ih =>
    simp only [findJob, updateJob, List.map_cons] at *
    by_cases hxc : x.code = c
    · rw [if_pos hxc]
      have h1 : ¬ (f x).code = c' := by
        rw [hf, hxc]; exact fun h => hne h.symm
      have h2 : ¬ x.code = c' := by
        rw [hxc]; exact fun h => hne h.symm
      rw [List.find?_cons_of_neg _ (by simpa using h1),
          List.find?_cons_of_neg _ (by simpa using h2)]
      exact ih
    · rw [if_neg hxc]
      by_cases hx' : x.code = c'
      · rw [List.find?_cons_of_pos _ (by simpa using hx'),
            List.find?_cons_of_pos _ (by simpa using hx')]
      · rw [List.find?_cons_of_neg _ (by simpa using hx'),
            List.find?_cons_of_neg _ (by simpa using hx')]
        exact ih

/-- Looking up the updated code returns the updated entry. -/
theorem findJob_updateJob_self {c : Nat} (f : ARJob → ARJob) {pool : List ARJob} {jb : ARJob}
    (hf : ∀ x, (f x).code = x.code)
    (h : findJob c pool = some jb) :
    findJob c (updateJob c f pool) = some (f jb) := by
  induction pool with
  | nil => simp [findJob] at h
  | cons x t ih =>
    simp only [findJob, updateJob, List.map_cons] at *
    by_cases hxc : x.code = c
    · rw [List.find?_cons_of_pos _ (by simpa using hxc)] at h
      injection h with h
      subst h
      rw [if_pos hxc]
      rw [List.find?_cons_of_pos _ (by simp [hf, hxc])]
    · rw [List.find?_cons_of_neg _ (by simpa using hxc)] at h
      rw [if_neg hxc]
      rw [List.find?_cons_of_neg _ (by simpa using hxc)]
      exact ih h

/-- A failed lookup stays failed under a code-keeping update. -/
theorem findJob_updateJob_none {c : Nat} (f : ARJob → ARJob) {pool : List ARJob}
    (hf : ∀ x, (f x).code = x.code)
    (h : findJob c pool = none) :
    findJob c (updateJob c f pool) = none := by
  induction pool with
  | nil => rfl
  | cons x t ih =>
    simp only [findJob, updateJob, List.map_cons] at *
    by_cases hxc : x.code = c
    · rw [List.find?_cons_of_pos _ (by simpa using hxc)] at h
      cases h
    · rw [List.find?_cons_of_neg _ (by simpa using hxc)] at h
      rw [if_neg hxc]
      rw [List.find?_cons_of_neg _ (by simpa using hxc)]
      exact ih h

/-- Unfolding `queuedSum` over a queue head. -/
theorem queuedSum_cons (pool : List ARJob) (c : Nat) (t : List Nat) :
    queuedSum pool (c :: t) =
      (match findJob c pool with | some jb => jb.workload | none => 0) + queuedSum pool t := by
  simp [queuedSum]

/-- Updating a code that is not in the queue leaves the queued sum alone. -/
theorem queuedSum_updateJob_notMem {c : Nat} (f : ARJob → ARJob) {pool : List ARJob}
    (hf : ∀ x, (f x).code = x.code) :
    ∀ q : List Nat, c ∉ q → queuedSum (updateJob c f pool) q = queuedSum pool q := by
  intro q hq
  induction q with
  | nil => rfl
  | cons c' t ih =>
    have hne : c' ≠ c := fun h => hq (by simp [h])
    have ht : c ∉ t := fun h => hq (List.mem_cons_of_mem _ h)
    rw [queuedSum_cons, queuedSum_cons, findJob_updateJob_ne f hf hne, ih ht]

/-- A workload-keeping update leaves every queued sum alone. -/
theorem queuedSum_updateJob_keep {c : Nat} (f : ARJob → ARJob) {pool : List ARJob}
    (hf : ∀ x, (f x).code = x.code) (hw : ∀ x, (f x).workload = x.workload) :
    ∀ q : List Nat, queuedSum (updateJob c f pool) q = queuedSum pool q := by
  intro q
  induction q with
  | nil => rfl
  | cons c' t ih =>
    rw [queuedSum_cons, queuedSum_cons, ih]
    by_cases hne : c' = c
    · subst hne
      cases h : findJob c' pool with
      | none => rw [findJob_updateJob_none f hf h]
      | some jb =>
        rw [findJob_updateJob_self f hf h]
        simp [hw jb]
    · rw [findJob_updateJob_ne f hf hne]

/-- Specialisation: a state rewrite keeps every queued sum. -/
theorem queuedSum_update_state (c : Nat) (st : ARJSt) (pool : List ARJob) (q : List Nat) :
    queuedSum (updateJob c (fun x => { x with state := st }) pool) q = queuedSum pool q :=
  queuedSum_updateJob_keep (fun x => { x with state := st }) (fun _ => rfl) (fun _ => rfl) q

/-- Specialisation: a send_data rewrite keeps every queued sum. -/
theorem queuedSum_update_send (c : Nat) (sd : Int) (pool : List ARJob) (q : List Nat) :
    queuedSum (updateJob c (fun x => { x with send_data := sd }) pool) q = queuedSum pool q :=
  queuedSum_updateJob_keep (fun x => { x with send_data := sd }) (fun _ => rfl) (fun _ => rfl) q

/-- Specialisation: a workload rewrite of a code outside the queue keeps the
queued sum. -/
theorem queuedSum_update_workload_notMem {c : Nat} (w : Int) {pool : List ARJob}
    {q : List Nat} (hq : c ∉ q) :
    queuedSum (updateJob c (fun x => { x with workload := w }) pool) q = queuedSum pool q :=
  queuedSum_updateJob_notMem (fun x => { x with workload := w }) (fun _ => rfl) q hq

/-- Specialisation: a state rewrite of a code outside the queue keeps the
queued sum. -/
theorem queuedSum_update_state_notMem {c : Nat} (st : ARJSt) {pool : List ARJob}
    {q : List Nat} (hq : c ∉ q) :
    queuedSum (updateJob c (fun x => { x with state := st }) pool) q = queuedSum pool q :=
  queuedSum_updateJob_notMem (fun x => { x with state := st }) (fun _ => rfl) q hq

/-- Specialisation of `findJob_updateJob_ne` to a state rewrite. -/
theorem findJob_update_state_ne {a c : Nat} (st : ARJSt) {pool : List ARJob} (hne : a ≠ c) :
    findJob a (updateJob c (fun x => { x with state := st }) pool) = findJob a pool :=
  findJob_updateJob_ne (fun x => { x with state := st }) (fun _ => rfl) hne

/-- Specialisation of `findJob_updateJob_ne` to a send_data rewrite. -/
theorem findJob_update_send_ne {a c : Nat} (sd : Int) {pool : List ARJob} (hne : a ≠ c) :
    findJob a (updateJob c (fun x => { x with send_data := sd }) pool) = findJob a pool :=
  findJob_updateJob_ne (fun x => { x with send_data := sd }) (fun _ => rfl) hne

/-- Specialisation of `findJob_updateJob_ne` to a workload rewrite. -/
theorem findJob_update_workload_ne {a c : Nat} (w : Int) {pool : List ARJob} (hne : a ≠ c) :
    findJob a (updateJob c (fun x => { x with workload := w }) pool) = findJob a pool :=
  findJob_updateJob_ne (fun x => { x with workload := w }) (fun _ => rfl) hne

/-- Specialisation of `findJob_updateJob_self` to a state rewrite. -/
theorem findJob_update_state_self {c : Nat} (st : ARJSt) {pool : List ARJob} {jb : ARJob}
    (h : findJob c pool = some jb) :
    findJob c (updateJob c (fun x => { x with state := st }) pool) =
      some { jb with state := st } :=
  findJob_updateJob_self (fun x => { x with state := st }) (fun _ => rfl) h

/-- Specialisation of `findJob_updateJob_self` to a workload rewrite. -/
theorem findJob_update_workload_self {c : Nat} (w : Int) {pool : List ARJob} {jb : ARJob}
    (h : findJob c pool = some jb) :
    findJob c (updateJob c (fun x => { x with workload := w }) pool) =
      some { jb with workload := w } :=
  findJob_updateJob_self (fun x => { x with workload := w }) (fun _ => rfl) h

/-- The data-send phase never changes workloads, hence no queued sum. -/
theorem arSendPhase_queuedSum :
    ∀ (q' : List Nat) (pool : List ARJob) (q : List Nat),
      queuedSum (arSendPhase q' pool) q = queuedSum pool q := by
  intro q'
  induction q' with
  | nil => intro pool q; rfl
  | cons c t ih =>
    intro pool q
    cases h : findJob c pool with
    | none =>
      simp only [arSendPhase, h]
      exact ih pool q
    | some jb =>
      simp only [arSendPhase, h]
      by_cases h1 : jb.state = ARJSt.SENDING_DATA
      · rw [if_pos h1]
        by_cases h2 : jb.send_data - 1 ≤ 0
        · rw [if_pos h2]
          cases t with
          | nil =>
            exact (queuedSum_update_state c ARJSt.READY_TO_RUN
              (updateJob c (fun x => { x with send_data := jb.send_data - 1 }) pool) q).trans
              (queuedSum_update_send c (jb.send_data - 1) pool q)
          | cons c2 t2 =>
            exact (queuedSum_update_state c2 ARJSt.SENDING_DATA _ q).trans
              ((queuedSum_update_state c ARJSt.READY_TO_RUN _ q).trans
                (queuedSum_update_send c (jb.send_data - 1) pool q))
        · rw [if_neg h2]
          exact queuedSum_update_send c (jb.send_data - 1) pool q
      · rw [if_neg h1]
        by_cases h3 : jb.state = ARJSt.WAITING_TO_SEND_DATA
        · rw [if_pos h3]
          exact queuedSum_update_state c ARJSt.SENDING_DATA pool q
        · rw [if_neg h3]
          exact ih pool q

/-- The data-send phase only touches jobs whose codes are in the walked
queue. -/
theorem arSendPhase_findJob_notMem {a : Nat} :
    ∀ (q' : List Nat) (pool : List ARJob), a ∉ q' →
      findJob a (arSendPhase q' pool) = findJob a pool := by
  intro q'
  induction q' with
  | nil => intro pool _; rfl
  | cons c t ih =>
    intro pool ha
    have hac : a ≠ c := fun h => ha (by simp [h])
    have hat : a ∉ t := fun h => ha (List.mem_cons_of_mem _ h)
    cases h : findJob c pool with
    | none =>
      simp only [arSendPhase, h]
      exact ih pool hat
    | some jb =>
      simp only [arSendPhase, h]
      by_cases h1 : jb.state = ARJSt.SENDING_DATA
      · rw [if_pos h1]
        by_cases h2 : jb.send_data - 1 ≤ 0
        · rw [if_pos h2]
          cases t with
          | nil =>
            exact (findJob_update_state_ne ARJSt.READY_TO_RUN hac).trans
              (findJob_update_send_ne (jb.send_data - 1) hac)
          | cons c2 t2 =>
            have hac2 : a ≠ c2 := fun h => hat (by simp [h])
            exact (findJob_update_state_ne ARJSt.SENDING_DATA hac2).trans
              ((findJob_update_state_ne ARJSt.READY_TO_RUN hac).trans
                (findJob_update_send_ne (jb.send_data - 1) hac))
        · rw [if_neg h2]
          exact findJob_update_send_ne (jb.send_data - 1) hac
      · rw [if_neg h1]
        by_cases h3 : jb.state = ARJSt.WAITING_TO_SEND_DATA
        · rw [if_pos h3]
          exact findJob_update_state_ne ARJSt.SENDING_DATA hac
        · rw [if_neg h3]
          exact ih pool hat

/-- Unfolding of the AR executor body for a resource with an empty queue. -/
theorem arResStep_eq_nil (pool : List ARJob) (res : ARResource) (g : List Nat)
    (hq : res.queue = []) :
    arResStep pool res g =
      ⟨pool,
       if res.state = ARRSt.NO_ACCEPT_JOBS then { res with state := ARRSt.LEAVING } else res,
       g, none⟩ := by
  obtain ⟨rc, rst, rlv, rtt, rut, rtw, rq⟩ := res
  simp only at hq
  subst hq
  by_cases h : rst = ARRSt.NO_ACCEPT_JOBS
  · simp only [arResStep]
    rw [if_pos ⟨h, trivial⟩, if_pos h]
  · simp only [arResStep]
    rw [if_neg (fun hc => h hc.1), if_neg h]

/-- Unfolding of the AR executor body for a resource with a non-empty queue. -/
theorem arResStep_eq_cons (pool : List ARJob) (res : ARResource) (g : List Nat)
    (c : Nat) (t : List Nat) (hq : res.queue = c :: t) :
    arResStep pool res g =
      (let out : ARStepOut :=
        match findJob c pool with
        | none => ⟨pool, res, g, none⟩
        | some jb =>
          match jb.state with
          | ARJSt.RUNNING =>
            let w' := jb.workload - (res.level : Int)
            let pool := updateJob c (fun x => { x with workload := w' }) pool
            let res := { res with total_workload := res.total_workload - (res.level : Int),
                                  used_time := res.used_time + 1 }
            if w' < 0 then
              let pool := updateJob c (fun x => { x with state := ARJSt.DONE }) pool
              let res := { res with queue := t }
              let (d, g2) := randDraw g
              let res :=
                if d % 1000 ≤ RL_PROB then { res with state := ARRSt.NO_ACCEPT_JOBS } else res
              ⟨pool, res, g2, some c⟩
            else ⟨pool, res, g, none⟩
          | ARJSt.READY_TO_RUN =>
            ⟨updateJob c (fun x => { x with state := ARJSt.RUNNING }) pool, res, g, none⟩
          | _ => ⟨pool, res, g, none⟩
      ⟨arSendPhase out.res.queue out.pool, out.res, out.rng, out.popped⟩) := by
  obtain ⟨rc, rst, rlv, rtt, rut, rtw, rq⟩ := res
  simp only at hq
  subst hq
  simp only [arResStep]
  rw [if_neg (by simp)]

/-- The AR executor on a resource whose head job is RUNNING and completes
(the remainder after one consumption is strictly negative): the job's pool
entry is DONE at the decremented workload, the reservation is popped, and
the resource accounts one used tick and `level` less `total_workload`. -/
theorem arResStep_running_done (pool : List ARJob) (res : ARResource) (g : List Nat)
    (c : Nat) (t : List Nat) (jb : ARJob)
    (hq : res.queue = c :: t) (hnt : c ∉ t)
    (hfind : findJob c pool = some jb) (hst : jb.state = ARJSt.RUNNING)
    (hlt : jb.workload - (res.level : Int) < 0) :
    (arResStep pool res g).popped = some c ∧
    (arResStep pool res g).res.queue = t ∧
    findJob c (arResStep pool res g).pool =
      some { jb with workload := jb.workload - (res.level : Int), state := ARJSt.DONE } ∧
    (arResStep pool res g).res.total_workload = res.total_workload - (res.level : Int) ∧
    (arResStep pool res g).res.used_time = res.used_time + 1 ∧
    (arResStep pool res g).res.total_time = res.total_time ∧
    queuedSum (arResStep pool res g).pool t = queuedSum pool t := by
  obtain ⟨jc, jst, jw, jsd, jwt⟩ := jb
  simp only at hst hlt
  subst hst
  rw [arResStep_eq_cons pool res g c t hq]
  simp only [hfind]
  rw [if_pos hlt]
  rcases hg : randDraw g with ⟨d, g2⟩
  simp only [hg]
  by_cases hd : d % 1000 ≤ RL_PROB
  all_goals
    first
      | rw [if_pos hd]
      | rw [if_neg hd]
  all_goals
    dsimp only
    refine ⟨by trivial, by trivial, ?_, by trivial, by trivial, by trivial, ?_⟩
  any_goals
    rw [arSendPhase_findJob_notMem t _ hnt,
      findJob_update_state_self ARJSt.DONE
        (findJob_update_workload_self (jw - (res.level : Int)) hfind)]
  all_goals
    rw [arSendPhase_queuedSum,
        queuedSum_update_state_notMem ARJSt.DONE hnt,
        queuedSum_update_workload_notMem (jw - (res.level : Int)) hnt]

/-- The AR executor on a resource whose head job is RUNNING and survives
(the remainder stays non-negative): the job's pool entry keeps state
RUNNING at the decremented workload, nothing is popped, and the resource
accounts one used tick and `level` less `total_workload`. -/
theorem arResStep_running_keep (pool : List ARJob) (res : ARResource) (g : List Nat)
    (c : Nat) (t : List Nat) (jb : ARJob)
    (hq : res.queue = c :: t) (hnt : c ∉ t)
    (hfind : findJob c pool = some jb) (hst : jb.state = ARJSt.RUNNING)
    (hge : ¬ jb.workload - (res.level : Int) < 0) :
    (arResStep pool res g).popped = none ∧
    (arResStep pool res g).res.queue = c :: t ∧
    findJob c (arResStep pool res g).pool =
      some { jb with workload := jb.workload - (res.level : Int) } ∧
    (arResStep pool res g).res.total_workload = res.total_workload - (res.level : Int) ∧
    (arResStep pool res g).res.used_time = res.used_time + 1 ∧
    (arResStep pool res g).res.total_time = res.total_time ∧
    queuedSum (arResStep pool res g).pool t = queuedSum pool t ∧
    (arResStep pool res g).rng = g := by
  obtain ⟨jc, jst, jw, jsd, jwt⟩ := jb
  simp only at hst hge
  subst hst
  rw [arResStep_eq_cons pool res g c t hq]
  simp only [hfind]
  rw [if_neg hge]
  dsimp only
  have h1 : findJob c (updateJob c
      (fun x => { x with workload := jw - (res.level : Int) }) pool) =
      some { code := jc, state := ARJSt.RUNNING, workload := jw - (res.level : Int),
             send_data := jsd, wait_time := jwt } :=
    findJob_update_workload_self (jw - (res.level : Int)) hfind
  refine ⟨by trivial, hq, ?_, by trivial, by trivial, by trivial, ?_, by trivial⟩
  · rw [hq]
    simp only [arSendPhase, h1]
    rw [if_neg (by simp), if_neg (by simp)]
    rw [arSendPhase_findJob_notMem t _ hnt]
    exact h1
  · rw [hq]
    rw [arSendPhase_queuedSum,
        queuedSum_update_workload_notMem (jw - (res.level : Int)) hnt]

/-- The mixed executor on a RUNNING job with a resolvable resource:
workload drops by the resource's level and the job is DONE exactly when the
remainder is non-positive. -/
theorem mxJobStep_running (jb : MJob) (rs : List MResource) (g : List Nat)
    (c : Nat) (r0 : MResource)
    (hst : jb.state = MJSt.RUNNING) (hro : jb.run_on = some c)
    (hfind : findRes c rs = some r0) :
    (mxJobStep jb rs g).job.workload = jb.workload - (r0.level : Int) ∧
    ((mxJobStep jb rs g).job.state = MJSt.DONE ↔ jb.workload - (r0.level : Int) ≤ 0) ∧
    (mxJobStep jb rs g).job.code = jb.code ∧
    (mxJobStep jb rs g).job.run_on = jb.run_on := by
  obtain ⟨jc, jst, jw, jsd, jwt, jro⟩ := jb
  simp only at hst hro
  subst hst
  subst hro
  simp only [mxJobStep, hfind]
  by_cases hw : jw - (r0.level : Int) ≤ 0
  · rw [if_pos hw]
    rcases hg : randDraw g with ⟨d, g2⟩
    simp only [hg]
    refine ⟨by trivial, ?_, by trivial, by trivial⟩
    simp [hw]
  · rw [if_neg hw]
    refine ⟨rfl, ?_, rfl, rfl⟩
    simp [hw]

/-- The AR executor on a resource whose head job is present but neither
RUNNING nor completing: nothing is popped, the resource is unchanged, and
no workload changes. -/
theorem arResStep_other (pool : List ARJob) (res : ARResource) (g : List Nat)
    (c : Nat) (t : List Nat) (jb : ARJob)
    (hq : res.queue = c :: t)
    (hfind : findJob c pool = some jb) (hst : jb.state ≠ ARJSt.RUNNING) :
    (arResStep pool res g).popped = none ∧
    (arResStep pool res g).res = res ∧
    (∀ q, queuedSum (arResStep pool res g).pool q = queuedSum pool q) := by
  obtain ⟨jc, jst, jw, jsd, jwt⟩ := jb
  simp only at hst
  rw [arResStep_eq_cons pool res g c t hq]
  simp only [hfind]
  cases jst with
  | RUNNING => exact absurd rfl hst
  | READY_TO_RUN =>
    dsimp only
    refine ⟨rfl, rfl, fun q => ?_⟩
    rw [hq, arSendPhase_queuedSum, queuedSum_update_state c ARJSt.RUNNING pool q]
  | WAITING =>
    dsimp only
    exact ⟨rfl, rfl, fun q => by rw [hq, arSendPhase_queuedSum]⟩
  | DONE =>
    dsimp only
    exact ⟨rfl, rfl, fun q => by rw [hq, arSendPhase_queuedSum]⟩
  | SENDING_DATA =>
    dsimp only
    exact ⟨rfl, rfl, fun q => by rw [hq, arSendPhase_queuedSum]⟩
  | WAITING_TO_SEND_DATA =>
    dsimp only
    exact ⟨rfl, rfl, fun q => by rw [hq, arSendPhase_queuedSum]⟩

/-- The AR executor on a resource whose head reservation dangles (no pool
entry): nothing is popped, the resource is unchanged, no workload changes.
Unreachable in the C program; included for exhaustiveness. -/
theorem arResStep_dangling (pool : List ARJob) (res : ARResource) (g : List Nat)
    (c : Nat) (t : List Nat)
    (hq : res.queue = c :: t) (hfind : findJob c pool = none) :
    (arResStep pool res g).popped = none ∧
    (arResStep pool res g).res = res ∧
    (∀ q, queuedSum (arResStep pool res g).pool q = queuedSum pool q) := by
  rw [arResStep_eq_cons pool res g c t hq]
  simp only [hfind]
  exact ⟨by trivial, by trivial, fun q => by rw [hq, arSendPhase_queuedSum]⟩

/- ===================== C3 (amended) ===================== -/

/-- C3 (amended): for every RUNNING job processed by the executor, its
workload is decremented by the serving resource's level; the job becomes
DONE in that pass exactly when the decremented workload is ≤ 0 in the MIXED
variant but exactly when it is < 0 (strictly negative) in the AR variant —
a job hitting exactly 0 stays RUNNING one extra tick there — and in the AR
variant the reservation is popped from the queue head exactly when the job
becomes DONE. -/
theorem spec_c3_amended :
    (∀ (jb : MJob) (rs : List MResource) (g : List Nat) (c : Nat) (r0 : MResource),
      jb.state = MJSt.RUNNING → jb.run_on = some c → findRes c rs = some r0 →
        (mxJobStep jb rs g).job.workload = jb.workload - (r0.level : Int) ∧
        ((mxJobStep jb rs g).job.state = MJSt.DONE ↔ jb.workload - (r0.level : Int) ≤ 0)) ∧
    (∀ (pool : List ARJob) (res : ARResource) (g : List Nat) (c : Nat) (t : List Nat)
        (jb : ARJob),
      res.queue = c :: t → c ∉ t → findJob c pool = some jb → jb.state = ARJSt.RUNNING →
        ∃ jb', findJob c (arResStep pool res g).pool = some jb' ∧
          jb'.workload = jb.workload - (res.level : Int) ∧
          (jb'.state = ARJSt.DONE ↔ jb.workload - (res.level : Int) < 0) ∧
          ((arResStep pool res g).popped = some c ↔ jb.workload - (res.level : Int) < 0)) := by
  constructor
  · intro jb rs g c r0 h1 h2 h3
    obtain ⟨hw, hd, _, _⟩ := mxJobStep_running jb rs g c r0 h1 h2 h3
    exact ⟨hw, hd⟩
  · intro pool res g c t jb hq hnt hfind hst
    by_cases hw : jb.workload - (res.level : Int) < 0
    · obtain ⟨h1, _, h3, _, _, _, _⟩ :=
        arResStep_running_done pool res g c t jb hq hnt hfind hst hw
      refine ⟨_, h3, rfl, ?_, ?_⟩
      · simp [hw]
      · rw [h1]; simp [hw]
    · obtain ⟨h1, _, h3, _, _, _, _, _⟩ :=
        arResStep_running_keep pool res g c t jb hq hnt hfind hst hw
      refine ⟨_, h3, rfl, ?_, ?_⟩
      · simp only [hw, iff_false]
        simp [hst]
      · rw [h1]; simp [hw]

/-- Concrete RUNNING job for the mixed-side witness of the amended C3. -/
def c3wjM : MJob := ⟨1, MJSt.RUNNING, 5, 0, 0, some 1⟩

/-- Concrete USED resource for the mixed-side witness of the amended C3. -/
def c3wrM : MResource := ⟨1, MRSt.USED, 5, 3, 2⟩

/-- Concrete RUNNING job for the AR-side witness of the amended C3. -/
def c3wjA : ARJob := ⟨1, ARJSt.RUNNING, 5, 0, 0⟩

/-- Concrete resource (level 5, queue [1]) for the AR-side witness. -/
def c3wrA : ARResource := ⟨1, ARRSt.HAS_JOBS, 5, 3, 2, 5, [1]⟩

/-- Witness for the amended C3 at the concrete inputs above: the mixed job
(workload 5, level 5) is DONE at remainder 0; the AR job (workload 5,
level 5) is NOT done at remainder 0 and nothing is popped. -/
theorem spec_c3_amended_witness :
    ((mxJobStep c3wjM [c3wrM] []).job.workload = c3wjM.workload - (c3wrM.level : Int) ∧
     ((mxJobStep c3wjM [c3wrM] []).job.state = MJSt.DONE ↔
        c3wjM.workload - (c3wrM.level : Int) ≤ 0)) ∧
    (∃ jb', findJob 1 (arResStep [c3wjA] c3wrA [999]).pool = some jb' ∧
      jb'.workload = c3wjA.workload - (c3wrA.level : Int) ∧
      (jb'.state = ARJSt.DONE ↔ c3wjA.workload - (c3wrA.level : Int) < 0) ∧
      ((arResStep [c3wjA] c3wrA [999]).popped = some 1 ↔
        c3wjA.workload - (c3wrA.level : Int) < 0)) :=
  ⟨spec_c3_amended.1 c3wjM [c3wrM] [] 1 c3wrM rfl rfl rfl,
   spec_c3_amended.2 [c3wjA] c3wrA [999] 1 [] c3wjA rfl (by decide) rfl rfl⟩

/- ===================== C6 (amended) ===================== -/

/-- C6 (amended): the conservation law the AR code actually maintains.  At
binding, appending a pooled job's reservation raises the queued-workload
sum by exactly that job's workload (matching the `total_workload` increase
in `schedule`, which adds the same amount).  On an executor step the
difference `total_workload − queued-sum` is unchanged — except when the
head job completes, where it changes by exactly the job's strictly negative
final workload.  Hence `total_workload` equals the queued-workload sum PLUS
the accumulated (negative) completion residuals, not the queued sum alone:
the claimed exact equality breaks at the first completion with overshoot. -/
theorem spec_c6_amended :
    (∀ (pool : List ARJob) (q : List Nat) (jb : ARJob),
        findJob jb.code pool = some jb →
        queuedSum pool (q ++ [jb.code]) = queuedSum pool q + jb.workload) ∧
    (∀ (pool : List ARJob) (res : ARResource) (g : List Nat) (c : Nat) (t : List Nat)
        (jb : ARJob),
        res.queue = c :: t → c ∉ t → findJob c pool = some jb →
        (arResStep pool res g).res.total_workload -
            queuedSum (arResStep pool res g).pool (arResStep pool res g).res.queue =
          res.total_workload - queuedSum pool res.queue +
            (match (arResStep pool res g).popped with
             | some _ => jb.workload - (res.level : Int)
             | none => 0) ∧
        ((arResStep pool res g).popped ≠ none →
          jb.workload - (res.level : Int) < 0)) := by
  constructor
  · intro pool q jb hfind
    simp [queuedSum, hfind]
  · intro pool res g c t jb hq hnt hfind
    by_cases hst : jb.state = ARJSt.RUNNING
    · by_cases hw : jb.workload - (res.level : Int) < 0
      · obtain ⟨h1, h2, h3, h4, _, _, h7⟩ :=
          arResStep_running_done pool res g c t jb hq hnt hfind hst hw
        refine ⟨?_, fun _ => hw⟩
        rw [h1, h2, h4, h7, hq, queuedSum_cons, hfind]
        ring
      · obtain ⟨h1, h2, h3, h4, _, _, h7, _⟩ :=
          arResStep_running_keep pool res g c t jb hq hnt hfind hst hw
        refine ⟨?_, fun hp => absurd h1 hp⟩
        rw [h1, h2, h4, hq, queuedSum_cons, queuedSum_cons, hfind, h3, h7]
        dsimp only
        ring
    · obtain ⟨h1, h2, h3⟩ := arResStep_other pool res g c t jb hq hfind hst
      refine ⟨?_, fun hp => absurd h1 hp⟩
      rw [h1, h2, h3]
      dsimp only
      ring

/-- Concrete pool for the C6 witness: one RUNNING job, workload 3. -/
def c6wp : List ARJob := [⟨1, ARJSt.RUNNING, 3, 0, 0⟩]

/-- Concrete resource for the C6 witness: level 5, `total_workload` 3,
queue [1]. -/
def c6wr : ARResource := ⟨1, ARRSt.HAS_JOBS, 5, 0, 0, 3, [1]⟩

/-- Witness for the amended C6 at the concrete inputs above: the job
completes with residual −2 and the conservation law holds there. -/
theorem spec_c6_amended_witness :
    (queuedSum c6wp ([] ++ [(1 : Nat)]) = queuedSum c6wp [] + (3 : Int)) ∧
    ((arResStep c6wp c6wr [999]).res.total_workload -
        queuedSum (arResStep c6wp c6wr [999]).pool (arResStep c6wp c6wr [999]).res.queue =
      c6wr.total_workload - queuedSum c6wp c6wr.queue +
        (match (arResStep c6wp c6wr [999]).popped with
         | some _ => (⟨1, ARJSt.RUNNING, 3, 0, 0⟩ : ARJob).workload - (c6wr.level : Int)
         | none => 0)) :=
  ⟨spec_c6_amended.1 c6wp [] ⟨1, ARJSt.RUNNING, 3, 0, 0⟩ rfl,
   (spec_c6_amended.2 c6wp c6wr [999] 1 [] ⟨1, ARJSt.RUNNING, 3, 0, 0⟩ rfl (by decide) rfl).1⟩

/- ===================== C9: FIFO service of a reservation queue ===================== -/

/-- Per-resource projection of the events that touch one AR reservation
queue: an executor pass (`arResStep` with whatever job pool and draws the
surrounding tick supplies) or a scheduler append of a reservation at the
tail. -/
inductive QOp
  | tick (pool : List ARJob) (g : List Nat)
  | app (c : Nat)

/-- The scheduler's binding effect on one resource's queue: append at tail
(src/ar-sim.c lines 189-197). -/
def qAppend (c : Nat) (r : ARResource) : ARResource :=
  { r with queue := r.queue ++ [c] }

/-- Run a sequence of per-resource events, collecting the codes popped from
the queue head (each popped exactly when its job completes). -/
def runQ : ARResource → List QOp → ARResource × List Nat
  | r, [] => (r, [])
  | r, QOp.tick pool g :: ops =>
    let o := arResStep pool r g
    let (r', em) := runQ o.res ops
    (r', o.popped.toList ++ em)
  | r, QOp.app c :: ops => runQ (qAppend c r) ops

/-- The codes appended over a sequence of per-resource events, in order. -/
def qAppends : List QOp → List Nat
  | [] => []
  | QOp.tick _ _ :: ops => qAppends ops
  | QOp.app c :: ops => c :: qAppends ops

/-- One executor pass either leaves the queue alone and pops nothing, or
pops exactly the head. -/
theorem arResStep_queue_shape (pool : List ARJob) (res : ARResource) (g : List Nat) :
    ((arResStep pool res g).res.queue = res.queue ∧ (arResStep pool res g).popped = none) ∨
    (∃ c t, res.queue = c :: t ∧ (arResStep pool res g).res.queue = t ∧
      (arResStep pool res g).popped = some c) := by
  cases hq : res.queue with
  | nil =>
    left
    rw [arResStep_eq_nil pool res g hq]
    by_cases h : res.state = ARRSt.NO_ACCEPT_JOBS
    · rw [if_pos h]; exact ⟨hq, rfl⟩
    · rw [if_neg h]; exact ⟨hq, rfl⟩
  | cons c t =>
    rw [arResStep_eq_cons pool res g c t hq]
    cases hf : findJob c pool with
    | none =>
      left
      simp only [hf]
      exact ⟨hq, trivial⟩
    | some jb =>
      obtain ⟨jc, jst, jw, jsd, jwt⟩ := jb
      cases jst with
      | RUNNING =>
        simp only [hf]
        by_cases hw : jw - (res.level : Int) < 0
        · right
          refine ⟨c, t, rfl, ?_, ?_⟩ <;>
            (rw [if_pos hw]
             try dsimp only
             try (split <;> rfl)
             try rfl)
        · left
          rw [if_neg hw]
          exact ⟨hq, rfl⟩
      | WAITING => simp only [hf]; exact Or.inl ⟨hq, trivial⟩
      | DONE => simp only [hf]; exact Or.inl ⟨hq, trivial⟩
      | SENDING_DATA => simp only [hf]; exact Or.inl ⟨hq, trivial⟩
      | WAITING_TO_SEND_DATA => simp only [hf]; exact Or.inl ⟨hq, trivial⟩
      | READY_TO_RUN => simp only [hf]; exact Or.inl ⟨hq, trivial⟩

/-- C9 (confirmed): FIFO service of every single AR reservation queue.  Over
any sequence of executor passes and tail-appends, the popped (completed)
codes followed by the remaining queue equal the initial queue followed by
the appended codes in append order — so jobs complete in exactly the order
their reservations were appended and none is skipped or served out of
order; moreover each single executor pass pops at most the head (second
conjunct). -/
theorem spec_c9_ar_fifo :
    (∀ (r : ARResource) (ops : List QOp),
      (runQ r ops).2 ++ (runQ r ops).1.queue = r.queue ++ qAppends ops) ∧
    (∀ (pool : List ARJob) (res : ARResource) (g : List Nat),
      ((arResStep pool res g).res.queue = res.queue ∧
        (arResStep pool res g).popped = none) ∨
      (∃ c t, res.queue = c :: t ∧ (arResStep pool res g).res.queue = t ∧
        (arResStep pool res g).popped = some c)) := by
  constructor
  · intro r ops
    induction ops generalizing r with
    | nil => simp [runQ, qAppends]
    | cons op ops ih =>
      cases op with
      | tick pool g =>
        rcases arResStep_queue_shape pool r g with ⟨hqe, hpe⟩ | ⟨c, t, hq, hqe, hpe⟩
        · simp only [runQ, qAppends, hpe, Option.toList, List.nil_append]
          rw [ih (arResStep pool r g).res, hqe]
        · simp only [runQ, qAppends, hpe, Option.toList, List.nil_append,
            List.cons_append]
          rw [ih (arResStep pool r g).res, hqe, hq, List.cons_append]
      | app c =>
        simp only [runQ, qAppends]
        rw [ih (qAppend c r)]
        simp [qAppend]
  · exact arResStep_queue_shape

/- ===================== C8: AR least-loaded selection ===================== -/

/-- The running minimum stays in the candidate-or-list set. -/
theorem bestResGo_mem (l : List ARResource) (best : ARResource) :
    bestResGo best l = best ∨ bestResGo best l ∈ l := by
  induction l generalizing best with
  | nil => left; rfl
  | cons r rest ih =>
    simp only [bestResGo]
    by_cases hc : arAccept r ∧ r.total_workload < best.total_workload
    · rw [if_pos hc]
      rcases ih r with h | h
      · right; rw [h]; exact List.mem_cons_self _ _
      · right; exact List.mem_cons_of_mem _ h
    · rw [if_neg hc]
      rcases ih best with h | h
      · left; exact h
      · right; exact List.mem_cons_of_mem _ h

/-- The running minimum keeps acceptance. -/
theorem bestResGo_accept (l : List ARResource) (best : ARResource)
    (hb : arAccept best = true) : arAccept (bestResGo best l) = true := by
  induction l generalizing best with
  | nil => exact hb
  | cons r rest ih =>
    simp only [bestResGo]
    by_cases hc : arAccept r ∧ r.total_workload < best.total_workload
    · rw [if_pos hc]; exact ih r hc.1
    · rw [if_neg hc]; exact ih best hb

/-- The running minimum is no larger than the candidate and than any
accepting list element. -/
theorem bestResGo_le (l : List ARResource) (best : ARResource) :
    (bestResGo best l).total_workload ≤ best.total_workload ∧
    ∀ x ∈ l, arAccept x = true →
      (bestResGo best l).total_workload ≤ x.total_workload := by
  induction l generalizing best with
  | nil => exact ⟨le_refl _, fun x hx => absurd hx (List.not_mem_nil x)⟩
  | cons r rest ih =>
    simp only [bestResGo]
    by_cases hc : arAccept r ∧ r.total_workload < best.total_workload
    · rw [if_pos hc]
      refine ⟨le_of_lt (lt_of_le_of_lt (ih r).1 hc.2), ?_⟩
      intro x hx hax
      rcases List.mem_cons.mp hx with rfl | hx'
      · exact (ih _).1
      · exact (ih _).2 x hx' hax
    · rw [if_neg hc]
      refine ⟨(ih best).1, ?_⟩
      intro x hx hax
      rcases List.mem_cons.mp hx with rfl | hx'
      · have hnl : ¬ x.total_workload < best.total_workload := fun hlt => hc ⟨hax, hlt⟩
        exact le_trans (ih best).1 (le_of_not_lt hnl)
      · exact (ih best).2 x hx' hax

/-- The running minimum is the earliest attaining element: either it is the
candidate itself, or it splits the list with every earlier accepting
element strictly heavier. -/
theorem bestResGo_earliest (l : List ARResource) (best : ARResource) :
    bestResGo best l = best ∨
    ∃ l1 l2, l = l1 ++ (bestResGo best l) :: l2 ∧
      (bestResGo best l).total_workload < best.total_workload ∧
      ∀ x ∈ l1, arAccept x = true →
        (bestResGo best l).total_workload < x.total_workload := by
  induction l generalizing best with
  | nil => left; rfl
  | cons r rest ih =>
    simp only [bestResGo]
    by_cases hc : arAccept r ∧ r.total_workload < best.total_workload
    · rw [if_pos hc]
      right
      rcases ih r with h | ⟨l1, l2, hsplit, hlt, hcond⟩
      · refine ⟨[], rest, by rw [h]; rfl, by rw [h]; exact hc.2,
          fun x hx => absurd hx (List.not_mem_nil x)⟩
      · refine ⟨r :: l1, l2, by rw [List.cons_append, ← hsplit],
          lt_trans hlt hc.2, ?_⟩
        intro x hx hax
        rcases List.mem_cons.mp hx with rfl | hx'
        · exact hlt
        · exact hcond x hx' hax
    · rw [if_neg hc]
      rcases ih best with h | ⟨l1, l2, hsplit, hlt, hcond⟩
      · left; exact h
      · right
        refine ⟨r :: l1, l2, by rw [List.cons_append, ← hsplit], hlt, ?_⟩
        intro x hx hax
        rcases List.mem_cons.mp hx with rfl | hx'
        · have hnl : ¬ x.total_workload < best.total_workload := fun h' => hc ⟨hax, h'⟩
          exact lt_of_lt_of_le hlt (le_of_not_lt hnl)
        · exact hcond x hx' hax

/-- Full specification of the AR resource-selection loops: the selected
resource is accepting, its `total_workload` is minimal among accepting
resources, and every accepting resource earlier in pool order is strictly
heavier (so the earliest wins ties). -/
theorem selectBestRes_spec (rs : List ARResource) (br : ARResource)
    (h : selectBestRes rs = some br) :
    arAccept br = true ∧
    (∀ x ∈ rs, arAccept x = true → br.total_workload ≤ x.total_workload) ∧
    ∃ l1 l2, rs = l1 ++ br :: l2 ∧
      ∀ x ∈ l1, arAccept x = true → br.total_workload < x.total_workload := by
  induction rs with
  | nil => cases h
  | cons r rest ih =>
    simp only [selectBestRes] at h
    by_cases ha : arAccept r = true
    · rw [if_pos ha] at h
      injection h with h
      subst h
      refine ⟨bestResGo_accept rest r ha, ?_, ?_⟩
      · intro x hx hax
        rcases List.mem_cons.mp hx with rfl | hx'
        · exact (bestResGo_le rest x).1
        · exact (bestResGo_le rest r).2 x hx' hax
      · rcases bestResGo_earliest rest r with he | ⟨l1, l2, hsplit, hlt, hcond⟩
        · refine ⟨[], rest, by rw [he]; rfl, fun x hx => absurd hx (List.not_mem_nil x)⟩
        · refine ⟨r :: l1, l2, by rw [List.cons_append, ← hsplit], ?_⟩
          intro x hx hax
          rcases List.mem_cons.mp hx with rfl | hx'
          · exact hlt
          · exact hcond x hx' hax
    · rw [if_neg ha] at h
      obtain ⟨h1, h2, l1, l2, hsplit, hcond⟩ := ih h
      refine ⟨h1, ?_, r :: l1, l2, by rw [List.cons_append, ← hsplit], ?_⟩
      · intro x hx hax
        rcases List.mem_cons.mp hx with rfl | hx'
        · exact absurd hax ha
        · exact h2 x hx' hax
      · intro x hx hax
        rcases List.mem_cons.mp hx with rfl | hx'
        · exact absurd hax ha
        · exact hcond x hx' hax

/-- A failed selection means every pool resource refuses jobs. -/
theorem selectBestRes_none (rs : List ARResource)
    (h : selectBestRes rs = none) : ∀ x ∈ rs, arAccept x = false := by
  induction rs with
  | nil => intro x hx; exact absurd hx (List.not_mem_nil x)
  | cons r rest ih =>
    simp only [selectBestRes] at h
    by_cases ha : arAccept r = true
    · rw [if_pos ha] at h; cases h
    · rw [if_neg ha] at h
      intro x hx
      rcases List.mem_cons.mp hx with rfl | hx'
      · cases hb : arAccept x with
        | false => rfl
        | true => exact absurd hb ha
      · exact ih h x hx'

/-- Accepting resource with `total_workload` 100 (the lighter one). -/
def c8r100 : ARResource := ⟨1, ARRSt.HAS_JOBS, 3, 0, 0, 100, []⟩

/-- Accepting resource with `total_workload` 300 (the heavier one). -/
def c8r300 : ARResource := ⟨2, ARRSt.AVAILABLE, 3, 0, 0, 300, []⟩

/-- C8 (confirmed): the AR scheduler binds the first WAITING job to the
resource with the smallest `total_workload` among resources not in
NO_ACCEPT_JOBS, ties broken in favour of the earliest in pool order; if no
accepting resource exists the pools are left unchanged; and with accepting
resources of `total_workload` 300 and 100 (in either order) the one with
100 is selected.  The binding itself (fourth conjunct) appends the job's
reservation at the selected resource's queue tail, adds its workload to
`total_workload`, and moves the job to WAITING_TO_SEND_DATA. -/
theorem spec_c8_ar_least_loaded :
    (∀ (rs : List ARResource) (br : ARResource), selectBestRes rs = some br →
      arAccept br = true ∧
      (∀ x ∈ rs, arAccept x = true → br.total_workload ≤ x.total_workload) ∧
      ∃ l1 l2, rs = l1 ++ br :: l2 ∧
        ∀ x ∈ l1, arAccept x = true → br.total_workload < x.total_workload) ∧
    (∀ rs, selectBestRes rs = none → ∀ x ∈ rs, arAccept x = false) ∧
    (∀ s : ARState, selectBestRes s.resources = none → arSchedule s = s) ∧
    (∀ (s : ARState) (ji : Nat) (bj : ARJob) (br : ARResource),
      firstIdxGo (fun jb => jb.state = ARJSt.WAITING) 0 s.jobs = some (ji, bj) →
      selectBestRes s.resources = some br →
      (arSchedule s).resources = replaceFirstRes br
        { br with state := ARRSt.HAS_JOBS,
                  total_workload := br.total_workload + bj.workload,
                  queue := br.queue ++ [bj.code] } s.resources ∧
      (arSchedule s).jobs =
        modifyAt ji (fun jb => { jb with state := ARJSt.WAITING_TO_SEND_DATA }) s.jobs) ∧
    selectBestRes [c8r300, c8r100] = some c8r100 ∧
    selectBestRes [c8r100, c8r300] = some c8r100 := by
  refine ⟨selectBestRes_spec, selectBestRes_none, ?_, ?_, by decide, by decide⟩
  · intro s h
    cases hj : firstIdxGo (fun jb => jb.state = ARJSt.WAITING) 0 s.jobs with
    | none => simp [arSchedule, hj]
    | some p =>
      rcases p with ⟨ji, bj⟩
      simp [arSchedule, hj, h]
  · intro s ji bj br h1 h2
    constructor <;> simp only [arSchedule, h1, h2]

/-- Witness for C8 at the heavier-first pool: the 100-workload resource is
selected, is minimal, and all accepting resources before it are heavier. -/
theorem spec_c8_ar_least_loaded_witness :
    arAccept c8r100 = true ∧
    (∀ x ∈ [c8r300, c8r100], arAccept x = true →
      c8r100.total_workload ≤ x.total_workload) ∧
    ∃ l1 l2, [c8r300, c8r100] = l1 ++ c8r100 :: l2 ∧
      ∀ x ∈ l1, arAccept x = true → c8r100.total_workload < x.total_workload :=
  spec_c8_ar_least_loaded.1 [c8r300, c8r100] c8r100 (by decide)

/- ===================== C7: used_time ≤ total_time, AR side ===================== -/

/-- The tick-boundary utilization bound for an AR resource list. -/
def arUsedOkL (rs : List ARResource) : Prop :=
  ∀ r ∈ rs, r.used_time ≤ r.total_time

/-- The mid-tick form after the trace step: one tick of slack, except for
resources that have never run anything and have an empty queue. -/
def arMidOkL (rs : List ARResource) : Prop :=
  ∀ r ∈ rs, r.used_time + 1 ≤ r.total_time ∨ (r.used_time = 0 ∧ r.queue = [])

/-- The trace step's effect on the AR resource pool. -/
theorem arTraceall_resources (s : ARState) :
    (arTraceall s).fst.resources =
      s.resources.map (fun r => { r with total_time := r.total_time + 1 }) := rfl

/-- The trace step's effect on the AR job pool. -/
theorem arTraceall_jobs (s : ARState) :
    (arTraceall s).fst.jobs = s.jobs.map arJobTrace := rfl

/-- `add_res` appends one fresh resource. -/
theorem arAddRes_resources (u : ARState) :
    (arAddRes u).resources = u.resources ++
      [⟨u.resource_number + 1, ARRSt.AVAILABLE, 1 + (randDraw u.rng).fst % 5, 0, 0, 0, []⟩] :=
  rfl

/-- `add_job` does not touch the resource pool. -/
theorem arAddJob_resources (u : ARState) : (arAddJob u).resources = u.resources := rfl

/-- Appending a never-used empty-queue resource keeps the mid-tick bound. -/
theorem arMidOkL_append (rs : List ARResource) (r0 : ARResource)
    (h : arMidOkL rs) (h0 : r0.used_time = 0) (hq : r0.queue = []) :
    arMidOkL (rs ++ [r0]) := by
  intro r hr
  rcases List.mem_append.mp hr with hr | hr
  · exact h r hr
  · rw [List.mem_singleton.mp hr]
    exact Or.inr ⟨h0, hq⟩

/-- Filtering keeps the mid-tick bound. -/
theorem arMidOkL_filter (rs : List ARResource) (p : ARResource → Bool)
    (h : arMidOkL rs) : arMidOkL (rs.filter p) :=
  fun r hr => h r (List.mem_filter.mp hr).1

/-- After the trace step every resource has the mid-tick slack. -/
theorem arTrace_mid (s : ARState) (h : arUsedOkL s.resources) :
    arMidOkL (arTraceall s).fst.resources := by
  rw [arTraceall_resources]
  intro r hr
  rcases List.mem_map.mp hr with ⟨r0, hr0, rfl⟩
  exact Or.inl (Nat.add_le_add_right (h r0 hr0) 1)

/-- The admission step keeps the mid-tick slack (fresh resources enter with
zero counters and empty queues; removal only drops entries). -/
theorem arAddRemove_mid (s : ARState) (h : arMidOkL s.resources) :
    arMidOkL (arAddRemove s).resources := by
  have hseed : arMidOkL (if s.begin_flag then
      { arAddRes (arAddRes (arAddRes (arAddRes (arAddRes s)))) with
        begin_flag := false } else s).resources := by
    split
    · show arMidOkL ((arAddRes (arAddRes (arAddRes (arAddRes (arAddRes s))))).resources)
      rw [arAddRes_resources]
      refine arMidOkL_append _ _ ?_ rfl rfl
      rw [arAddRes_resources]
      refine arMidOkL_append _ _ ?_ rfl rfl
      rw [arAddRes_resources]
      refine arMidOkL_append _ _ ?_ rfl rfl
      rw [arAddRes_resources]
      refine arMidOkL_append _ _ ?_ rfl rfl
      rw [arAddRes_resources]
      exact arMidOkL_append _ _ h rfl rfl
    · exact h
  simp only [arAddRemove]
  split
  · rw [arAddRes_resources]
    refine arMidOkL_append _ _ ?_ rfl rfl
    exact arMidOkL_filter _ _ hseed
  · rw [arAddJob_resources]
    exact arMidOkL_filter _ _ hseed
  · exact arMidOkL_filter _ _ hseed

/-- One AR executor pass books at most one used tick per resource, never
touches `total_time`, and books none for an empty-queue resource. -/
theorem arResStep_res_bound (pool : List ARJob) (res : ARResource) (g : List Nat) :
    (arResStep pool res g).res.total_time = res.total_time ∧
    (arResStep pool res g).res.used_time ≤ res.used_time + 1 ∧
    (res.queue = [] → (arResStep pool res g).res.used_time = res.used_time) := by
  cases hq : res.queue with
  | nil =>
    rw [arResStep_eq_nil pool res g hq]
    by_cases h : res.state = ARRSt.NO_ACCEPT_JOBS
    · rw [if_pos h]
      exact ⟨rfl, Nat.le_succ _, fun _ => rfl⟩
    · rw [if_neg h]
      exact ⟨rfl, Nat.le_succ _, fun _ => rfl⟩
  | cons c t =>
    rw [arResStep_eq_cons pool res g c t hq]
    have hne : (c :: t : List Nat) ≠ [] := by simp
    cases hf : findJob c pool with
    | none =>
      simp only [hf]
      exact ⟨by trivial, Nat.le_succ _, fun hc => absurd hc hne⟩
    | some jb =>
      obtain ⟨jc, jst, jw, jsd, jwt⟩ := jb
      cases jst with
      | RUNNING =>
        simp only [hf]
        by_cases hw : jw - (res.level : Int) < 0
        · rw [if_pos hw]
          refine ⟨?_, ?_, fun hc => absurd hc hne⟩ <;>
            (try dsimp only
             try (split <;> rfl)
             try rfl
             try (split <;> exact le_refl _)
             try exact le_refl _)
        · rw [if_neg hw]
          exact ⟨rfl, le_refl _, fun hc => absurd hc hne⟩
      | WAITING => simp only [hf]; exact ⟨by trivial, Nat.le_succ _, fun hc => absurd hc hne⟩
      | DONE => simp only [hf]; exact ⟨by trivial, Nat.le_succ _, fun hc => absurd hc hne⟩
      | SENDING_DATA => simp only [hf]; exact ⟨by trivial, Nat.le_succ _, fun hc => absurd hc hne⟩
      | WAITING_TO_SEND_DATA =>
        simp only [hf]; exact ⟨by trivial, Nat.le_succ _, fun hc => absurd hc hne⟩
      | READY_TO_RUN => simp only [hf]; exact ⟨by trivial, Nat.le_succ _, fun hc => absurd hc hne⟩

/-- Lifting the per-resource executor bound over the whole pass. -/
theorem arRunGo_resources :
    ∀ (rs : List ARResource) (pool : List ARJob) (g : List Nat),
      ∀ r' ∈ (arRunGo rs pool g).1, ∃ r ∈ rs,
        r'.total_time = r.total_time ∧ r'.used_time ≤ r.used_time + 1 ∧
        (r.queue = [] → r'.used_time = r.used_time) := by
  intro rs
  induction rs with
  | nil => intro pool g r' h; exact absurd h (List.not_mem_nil r')
  | cons r rest ih =>
    intro pool g r' h
    simp only [arRunGo] at h
    rcases List.mem_cons.mp h with rfl | h'
    · exact ⟨r, List.mem_cons_self _ _, (arResStep_res_bound pool r g).1,
        (arResStep_res_bound pool r g).2.1, (arResStep_res_bound pool r g).2.2⟩
    · obtain ⟨r0, hr0, hp⟩ := ih (arResStep pool r g).pool (arResStep pool r g).rng r' h'
      exact ⟨r0, List.mem_cons_of_mem _ hr0, hp⟩

/-- `run_send` restores the tick-boundary bound from the mid-tick slack. -/
theorem arRunSend_used (s : ARState) (h : arMidOkL s.resources) :
    arUsedOkL (arRunSend s).resources := by
  intro r' hr'
  obtain ⟨r, hr, h1, h2, h3⟩ := arRunGo_resources s.resources s.jobs s.rng r' hr'
  rcases h r hr with hm | ⟨hu0, hq0⟩
  · rw [h1]; exact le_trans h2 hm
  · rw [h1, h3 hq0, hu0]; exact Nat.zero_le _

/-- Replacing a node yields a member of the old pool or the new node. -/
theorem replaceFirstRes_mem (old new : ARResource) :
    ∀ (l : List ARResource), ∀ r' ∈ replaceFirstRes old new l, r' ∈ l ∨ r' = new := by
  intro l
  induction l with
  | nil => intro r' h; exact absurd h (List.not_mem_nil r')
  | cons x t ih =>
    intro r' h
    simp only [replaceFirstRes] at h
    by_cases hx : x = old
    · rw [if_pos hx] at h
      rcases List.mem_cons.mp h with rfl | h'
      · right; rfl
      · left; exact List.mem_cons_of_mem _ h'
    · rw [if_neg hx] at h
      rcases List.mem_cons.mp h with rfl | h'
      · left; exact List.mem_cons_self _ _
      · rcases ih r' h' with h'' | h''
        · left; exact List.mem_cons_of_mem _ h''
        · right; exact h''

/-- The AR scheduler never changes `used_time` or `total_time`. -/
theorem arSchedule_used (s : ARState) (h : arUsedOkL s.resources) :
    arUsedOkL (arSchedule s).resources := by
  intro r' hr'
  cases hj : firstIdxGo (fun jb => jb.state = ARJSt.WAITING) 0 s.jobs with
  | none =>
    simp only [arSchedule, hj] at hr'
    exact h r' hr'
  | some p =>
    rcases p with ⟨ji, bj⟩
    cases hb : selectBestRes s.resources with
    | none =>
      simp only [arSchedule, hj, hb] at hr'
      exact h r' hr'
    | some br =>
      simp only [arSchedule, hj, hb] at hr'
      rcases replaceFirstRes_mem _ _ _ r' hr' with h' | rfl
      · exact h r' h'
      · obtain ⟨_, _, l1, l2, hsplit, _⟩ := selectBestRes_spec s.resources br hb
        have hbr : br ∈ s.resources := by
          rw [hsplit]; exact List.mem_append_right _ (List.mem_cons_self _ _)
        exact h br hbr

/-- One AR tick preserves the tick-boundary utilization bound. -/
theorem arTick_used {s s' : ARState} (ht : arTick s = some s')
    (h : arUsedOkL s.resources) : arUsedOkL s'.resources := by
  simp only [arTick] at ht
  by_cases hex : (arTraceall s).snd = true
  · rw [if_pos hex] at ht; cases ht
  · rw [if_neg hex] at ht
    injection ht with ht
    subst ht
    exact arSchedule_used _ (arRunSend_used _ (arAddRemove_mid _ (arTrace_mid s h)))

/-- Every reachable AR state satisfies the utilization bound. -/
theorem arReach_used {s : ARState} (h : ARReach s) : arUsedOkL s.resources := by
  induction h with
  | init g => intro r hr; exact absurd hr (List.not_mem_nil r)
  | step _ ht ih => exact arTick_used ht ih

/- ===================== C7/C10: mixed-variant invariant ===================== -/

/-- Pointwise code preservation lifts to the code list. -/
theorem map_code_keep {F : MResource → MResource} (hF : ∀ x, (F x).code = x.code) :
    ∀ rs : List MResource,
      (rs.map F).map (fun r => r.code) = rs.map (fun r => r.code) := by
  intro rs
  induction rs with
  | nil => rfl
  | cons r t ih => simp only [List.map_cons, ih, hF]

/-- An update of code `c` keeps an element with another code. -/
theorem updateRes_mem_ne {c : Nat} {f : MResource → MResource} {rs : List MResource}
    {r : MResource} (hr : r ∈ rs) (hne : r.code ≠ c) : r ∈ updateRes c f rs :=
  List.mem_map.mpr ⟨r, hr, by rw [if_neg hne]⟩

/-- An update of code `c` turns a matching element into its image. -/
theorem updateRes_mem_eq {c : Nat} {f : MResource → MResource} {rs : List MResource}
    {r : MResource} (hr : r ∈ rs) (heq : r.code = c) : f r ∈ updateRes c f rs :=
  List.mem_map.mpr ⟨r, hr, by rw [if_pos heq]⟩

/-- With distinct codes, the member carrying a code is what lookup finds. -/
theorem findRes_nodup {rs : List MResource} {r : MResource} {c : Nat}
    (hnd : (rs.map (fun r => r.code)).Nodup) (hr : r ∈ rs) (hc : r.code = c) :
    findRes c rs = some r := by
  induction rs with
  | nil => exact absurd hr (List.not_mem_nil r)
  | cons x t ih =>
    simp only [List.map_cons, List.nodup_cons] at hnd
    rcases List.mem_cons.mp hr with rfl | hr'
    · exact List.find?_cons_of_pos _ (by simp [hc])
    · by_cases hx : x.code = c
      · exfalso
        apply hnd.1
        rw [hx, ← hc]
        exact List.mem_map.mpr ⟨r, hr', rfl⟩
      · rw [findRes, List.find?_cons_of_neg _ (by simp [hx])]
        exact ih hnd.2 hr'

/-- Members with equal codes coincide when codes are distinct. -/
theorem code_inj {rs : List MResource} {r1 r2 : MResource}
    (hnd : (rs.map (fun r => r.code)).Nodup) (h1 : r1 ∈ rs) (h2 : r2 ∈ rs)
    (h : r1.code = r2.code) : r1 = r2 :=
  List.inj_on_of_nodup_map hnd h1 h2 h

/-- Job-side facts of one mixed executor step: `run_on` and `code` are
preserved and a live output job was live before. -/
theorem mxJobStep_job_facts (jb : MJob) (rs : List MResource) (g : List Nat) :
    (mxJobStep jb rs g).job.run_on = jb.run_on ∧
    (mxJobStep jb rs g).job.code = jb.code ∧
    (mjLive (mxJobStep jb rs g).job → mjLive jb) := by
  obtain ⟨jc, jst, jw, jsd, jwt, jro⟩ := jb
  cases jst with
  | WAITING => exact ⟨rfl, rfl, fun h => h⟩
  | DONE => exact ⟨rfl, rfl, fun h => h⟩
  | SENDING_DATA =>
    simp only [mxJobStep]
    by_cases hsd : jsd - 1 ≤ 0
    · rw [if_pos hsd]
      cases jro with
      | none => exact ⟨by trivial, by trivial, fun _ => Or.inl rfl⟩
      | some c => exact ⟨by trivial, by trivial, fun _ => Or.inl rfl⟩
    · rw [if_neg hsd]
      exact ⟨by trivial, by trivial, fun _ => Or.inl rfl⟩
  | RUNNING =>
    simp only [mxJobStep]
    cases jro with
    | none => exact ⟨rfl, rfl, fun h => h⟩
    | some c =>
      cases hf : findRes c rs with
      | none => simp only [hf]; exact ⟨by trivial, by trivial, fun h => h⟩
      | some r0 =>
        simp only [hf]
        by_cases hw : jw - (r0.level : Int) ≤ 0
        · rw [if_pos hw]
          rcases hg : randDraw g with ⟨d, g2⟩
          simp only [hg]
          refine ⟨by trivial, by trivial, fun h => ?_⟩
          rcases h with h | h <;> exact absurd h (by simp)
        · rw [if_neg hw]
          exact ⟨rfl, rfl, fun _ => Or.inr rfl⟩

/-- Resource-side map form of one mixed executor step: the new pool is a
pointwise image of the old one; codes and `total_time` are kept, at most
one used tick is booked and only on the resource the job runs on, and any
resource not pointed at by a live job is untouched. -/
theorem mxJobStep_map (jb : MJob) (rs : List MResource) (g : List Nat) :
    ∃ F : MResource → MResource, (mxJobStep jb rs g).resources = rs.map F ∧
      (∀ x, (F x).code = x.code) ∧
      (∀ x, (F x).total_time = x.total_time) ∧
      (∀ x, (F x).used_time ≤ x.used_time +
        (if jb.state = MJSt.RUNNING ∧ jb.run_on = some x.code then 1 else 0)) ∧
      (∀ x, (¬ mjLive jb ∨ jb.run_on ≠ some x.code) → F x = x) := by
  obtain ⟨jc, jst, jw, jsd, jwt, jro⟩ := jb
  cases jst with
  | WAITING =>
    exact ⟨fun x => x, by simp [mxJobStep], fun x => rfl, fun x => rfl,
      fun x => Nat.le_add_right _ _, fun x _ => rfl⟩
  | DONE =>
    exact ⟨fun x => x, by simp [mxJobStep], fun x => rfl, fun x => rfl,
      fun x => Nat.le_add_right _ _, fun x _ => rfl⟩
  | SENDING_DATA =>
    simp only [mxJobStep]
    by_cases hsd : jsd - 1 ≤ 0
    · rw [if_pos hsd]
      cases jro with
      | none =>
        exact ⟨fun x => x, by simp, fun x => rfl, fun x => rfl,
          fun x => Nat.le_add_right _ _, fun x _ => rfl⟩
      | some c =>
        refine ⟨fun x => if x.code = c then { x with state := MRSt.USED } else x,
          rfl, ?_, ?_, ?_, ?_⟩
        · intro x; by_cases h : x.code = c <;> simp [h]
        · intro x; by_cases h : x.code = c <;> simp [h]
        · intro x; by_cases h : x.code = c <;> simp [h]
        · intro x hx
          rcases hx with hx | hx
          · exact absurd (Or.inl rfl) hx
          · have hne : x.code ≠ c := fun h => hx (by rw [h])
            simp [hne]
    · rw [if_neg hsd]
      exact ⟨fun x => x, by simp, fun x => rfl, fun x => rfl,
        fun x => Nat.le_add_right _ _, fun x _ => rfl⟩
  | RUNNING =>
    simp only [mxJobStep]
    cases jro with
    | none =>
      exact ⟨fun x => x, by simp, fun x => rfl, fun x => rfl,
        fun x => Nat.le_add_right _ _, fun x _ => rfl⟩
    | some c =>
      cases hf : findRes c rs with
      | none =>
        simp only [hf]
        exact ⟨fun x => x, by simp, fun x => rfl, fun x => rfl,
          fun x => Nat.le_add_right _ _, fun x _ => rfl⟩
      | some r0 =>
        simp only [hf]
        by_cases hw : jw - (r0.level : Int) ≤ 0
        · rw [if_pos hw]
          rcases hg : randDraw g with ⟨d, g2⟩
          simp only [hg]
          by_cases hd : d % 1000 ≤ RL_PROB
          · rw [if_pos hd]
            refine ⟨fun x =>
              (fun y => if y.code = c then { y with state := MRSt.LEAVING } else y)
              ((fun y => if y.code = c then { y with state := MRSt.AVAILABLE } else y)
               ((fun y => if y.code = c then { y with used_time := y.used_time + 1 } else y)
                x)), ?_, ?_, ?_, ?_, ?_⟩
            · simp [updateRes, List.map_map, Function.comp]
            · intro x; by_cases h : x.code = c <;> simp [h]
            · intro x; by_cases h : x.code = c <;> simp [h]
            · intro x; by_cases h : x.code = c <;> simp [h]
            · intro x hx
              rcases hx with hx | hx
              · exact absurd (Or.inr rfl) hx
              · have hne : x.code ≠ c := fun h => hx (by rw [h])
                simp [hne]
          · rw [if_neg hd]
            refine ⟨fun x =>
              (fun y => if y.code = c then { y with state := MRSt.AVAILABLE } else y)
              ((fun y => if y.code = c then { y with used_time := y.used_time + 1 } else y)
               x), ?_, ?_, ?_, ?_, ?_⟩
            · simp [updateRes, List.map_map, Function.comp]
            · intro x; by_cases h : x.code = c <;> simp [h]
            · intro x; by_cases h : x.code = c <;> simp [h]
            · intro x; by_cases h : x.code = c <;> simp [h]
            · intro x hx
              rcases hx with hx | hx
              · exact absurd (Or.inr rfl) hx
              · have hne : x.code ≠ c := fun h => hx (by rw [h])
                simp [hne]
        · rw [if_neg hw]
          refine ⟨fun x => if x.code = c then { x with used_time := x.used_time + 1 } else x,
            rfl, ?_, ?_, ?_, ?_⟩
          · intro x; by_cases h : x.code = c <;> simp [h]
          · intro x; by_cases h : x.code = c <;> simp [h]
          · intro x; by_cases h : x.code = c <;> simp [h]
          · intro x hx
            rcases hx with hx | hx
            · exact absurd (Or.inr rfl) hx
            · have hne : x.code ≠ c := fun h => hx (by rw [h])
              simp [hne]

/-- Safety transfers along any pool change that keeps the pointed member. -/
theorem mjSafe_mem_transfer {jb : MJob} {rs1 rs2 : List MResource}
    (hs : mjSafe jb rs1)
    (hok : ∀ r ∈ rs1, mjLive jb → jb.run_on = some r.code → r ∈ rs2) :
    mjSafe jb rs2 := by
  constructor
  · intro h
    obtain ⟨r, hr, hro, hst⟩ := hs.1 h
    exact ⟨r, hok r hr (Or.inl h) hro, hro, hst⟩
  · intro h
    obtain ⟨r, hr, hro, hst⟩ := hs.2 h
    exact ⟨r, hok r hr (Or.inr h) hro, hro, hst⟩

/-- Safety depends only on the job's state and binding. -/
theorem mjSafe_congr {jb jb' : MJob} {rs : List MResource}
    (hst : jb'.state = jb.state) (hro : jb'.run_on = jb.run_on)
    (hs : mjSafe jb rs) : mjSafe jb' rs := by
  constructor
  · intro h
    obtain ⟨r, hr, h1, h2⟩ := hs.1 (hst ▸ h)
    exact ⟨r, hr, hro ▸ h1, h2⟩
  · intro h
    obtain ⟨r, hr, h1, h2⟩ := hs.2 (hst ▸ h)
    exact ⟨r, hr, hro ▸ h1, h2⟩

/-- Safety transfers along a pool map that keeps codes and states. -/
theorem mjSafe_map_transfer {jb : MJob} {rs : List MResource}
    {G : MResource → MResource}
    (hGc : ∀ r, (G r).code = r.code) (hGs : ∀ r, (G r).state = r.state)
    (hs : mjSafe jb rs) : mjSafe jb (rs.map G) := by
  constructor
  · intro h
    obtain ⟨r, hr, hro, hst⟩ := hs.1 h
    exact ⟨G r, List.mem_map.mpr ⟨r, hr, rfl⟩, by rw [hGc]; exact hro,
      by rw [hGs]; exact hst⟩
  · intro h
    obtain ⟨r, hr, hro, hst⟩ := hs.2 h
    exact ⟨G r, List.mem_map.mpr ⟨r, hr, rfl⟩, by rw [hGc]; exact hro,
      by rw [hGs]; exact hst⟩

/-- One mixed executor step keeps the stepped job's pointer safety, given
distinct resource codes. -/
theorem mxJobStep_safe (jb : MJob) (rs : List MResource) (g : List Nat)
    (hnd : (rs.map (fun r => r.code)).Nodup) (hs : mjSafe jb rs) :
    mjSafe (mxJobStep jb rs g).job (mxJobStep jb rs g).resources := by
  obtain ⟨jc, jst, jw, jsd, jwt, jro⟩ := jb
  cases jst with
  | WAITING => exact hs
  | DONE => exact hs
  | SENDING_DATA =>
    obtain ⟨r, hr, hro, hst⟩ := hs.1 rfl
    simp only at hro
    simp only [mxJobStep]
    by_cases hsd : jsd - 1 ≤ 0
    · rw [if_pos hsd]
      cases jro with
      | none => cases hro
      | some c =>
        injection hro with hro
        constructor
        · intro h
          exact absurd h (by simp)
        · intro _
          refine ⟨{ r with state := MRSt.USED }, ?_, by simp [hro], rfl⟩
          exact updateRes_mem_eq hr hro.symm
    · rw [if_neg hsd]
      constructor
      · intro _
        exact ⟨r, hr, hro ▸ rfl, hst⟩
      · intro h
        exact absurd h (by simp)
  | RUNNING =>
    obtain ⟨r, hr, hro, hst⟩ := hs.2 rfl
    simp only at hro
    simp only [mxJobStep]
    cases jro with
    | none => cases hro
    | some c =>
      injection hro with hro
      dsimp only
      rw [findRes_nodup hnd hr hro.symm]
      dsimp only
      by_cases hw : jw - (r.level : Int) ≤ 0
      · rw [if_pos hw]
        rcases hg : randDraw g with ⟨d, g2⟩
        simp only [hg]
        by_cases hd : d % 1000 ≤ RL_PROB
        · rw [if_pos hd]
          constructor
          · intro h; exact absurd h (by simp)
          · intro h; exact absurd h (by simp)
        · rw [if_neg hd]
          constructor
          · intro h; exact absurd h (by simp)
          · intro h; exact absurd h (by simp)
      · rw [if_neg hw]
        constructor
        · intro h; exact absurd h (by simp)
        · intro _
          refine ⟨{ r with used_time := r.used_time + 1 }, ?_, by simp [hro], by simp [hst]⟩
          exact updateRes_mem_eq hr hro.symm

/-- Number of RUNNING jobs bound to the resource with code `c`. -/
def countRun (jobs : List MJob) (c : Nat) : Nat :=
  jobs.countP (fun x => decide (x.state = MJSt.RUNNING) && decide (x.run_on = some c))

/-- The live-binding pairwise relation of the mixed job pool. -/
def mxDistinct (jobs : List MJob) : Prop :=
  jobs.Pairwise (fun a b => mjLive a → mjLive b → a.run_on ≠ b.run_on)

/-- Distinct live bindings admit at most one RUNNING job per resource. -/
theorem countRun_le_one (jobs : List MJob) (c : Nat) (h : mxDistinct jobs) :
    countRun jobs c ≤ 1 := by
  induction jobs with
  | nil => exact Nat.zero_le 1
  | cons jb rest ih =>
    have h' := List.pairwise_cons.mp h
    rw [countRun, List.countP_cons]
    simp only [Bool.and_eq_true, decide_eq_true_eq]
    by_cases hm : jb.state = MJSt.RUNNING ∧ jb.run_on = some c
    · rw [if_pos hm]
      have hz : countRun rest c = 0 := by
        rw [countRun, List.countP_eq_zero]
        intro b hb
        simp only [Bool.and_eq_true, decide_eq_true_eq, not_and]
        intro hbs hbo
        exact absurd (hm.2.trans hbo.symm)
          (h'.1 b hb (Or.inr hm.1) (Or.inr hbs))
      rw [countRun] at hz
      rw [hz]
    · rw [if_neg hm]
      have hle := ih h'.2
      rw [countRun] at hle
      omega

/-- A resource that pointer safety pins to a non-USED state has no RUNNING
job at all. -/
theorem countRun_zero {jobs : List MJob} {rs : List MResource} {r : MResource}
    (hnd : (rs.map (fun x => x.code)).Nodup)
    (hs : ∀ jb ∈ jobs, mjSafe jb rs)
    (hr : r ∈ rs) (hst : r.state ≠ MRSt.USED) :
    countRun jobs r.code = 0 := by
  rw [countRun, List.countP_eq_zero]
  intro jb hjb
  simp only [Bool.and_eq_true, decide_eq_true_eq, not_and]
  intro hbs hbo
  obtain ⟨r2, hr2, hro2, hst2⟩ := (hs jb hjb).2 hbs
  rw [hbo] at hro2
  injection hro2 with hro2
  have : r2 = r := code_inj hnd hr2 hr hro2.symm
  rw [this] at hst2
  exact hst (hst2 ▸ rfl)

/-- Used-tick accounting over the whole mixed executor pass. -/
theorem mxRunGo_used :
    ∀ (jobs : List MJob) (rs : List MResource) (g : List Nat),
      ∀ r' ∈ (mxRunGo jobs rs g).2.1, ∃ r ∈ rs, r'.code = r.code ∧
        r'.total_time = r.total_time ∧
        r'.used_time ≤ r.used_time + countRun jobs r.code := by
  intro jobs
  induction jobs with
  | nil =>
    intro rs g r' hr'
    exact ⟨r', hr', rfl, rfl, by simp [countRun]⟩
  | cons jb rest ih =>
    intro rs g r' hr'
    obtain ⟨F, hmap, hFc, hFt, hFu, _⟩ := mxJobStep_map jb rs g
    simp only [mxRunGo] at hr'
    obtain ⟨r1, hr1, hc1, ht1, hu1⟩ :=
      ih (mxJobStep jb rs g).resources (mxJobStep jb rs g).rng r' hr'
    rw [hmap] at hr1
    obtain ⟨r, hr, rfl⟩ := List.mem_map.mp hr1
    refine ⟨r, hr, by rw [hc1, hFc], by rw [ht1, hFt], ?_⟩
    have hb : r'.used_time ≤ (F r).used_time + countRun rest (F r).code := hu1
    rw [hFc] at hb
    have hcnt : countRun (jb :: rest) r.code =
        countRun rest r.code +
          (if jb.state = MJSt.RUNNING ∧ jb.run_on = some r.code then 1 else 0) := by
      rw [countRun, countRun, List.countP_cons]
      simp only [Bool.and_eq_true, decide_eq_true_eq]
    calc r'.used_time ≤ (F r).used_time + countRun rest r.code := hb
      _ ≤ (r.used_time +
            (if jb.state = MJSt.RUNNING ∧ jb.run_on = some r.code then 1 else 0)) +
            countRun rest r.code := Nat.add_le_add_right (hFu r) _
      _ = r.used_time + countRun (jb :: rest) r.code := by rw [hcnt]; ring

/-- Core invariants across the whole mixed executor pass: resource codes
are preserved, every output job is pointer-safe against the output pool,
live bindings stay pairwise distinct, any resource no live job points at
survives untouched, and every output job traces back to an input job with
the same binding. -/
theorem mxRunGo_core :
    ∀ (jobs : List MJob) (rs : List MResource) (g : List Nat),
      (rs.map (fun r => r.code)).Nodup →
      (∀ jb ∈ jobs, mjSafe jb rs) →
      mxDistinct jobs →
      ((mxRunGo jobs rs g).2.1.map (fun r => r.code) = rs.map (fun r => r.code)) ∧
      (∀ jb' ∈ (mxRunGo jobs rs g).1, mjSafe jb' (mxRunGo jobs rs g).2.1) ∧
      mxDistinct (mxRunGo jobs rs g).1 ∧
      (∀ r ∈ rs, (∀ jb ∈ jobs, mjLive jb → jb.run_on ≠ some r.code) →
        r ∈ (mxRunGo jobs rs g).2.1) ∧
      (∀ jb' ∈ (mxRunGo jobs rs g).1, ∃ jb ∈ jobs, jb'.run_on = jb.run_on ∧
        (mjLive jb' → mjLive jb)) := by
  intro jobs
  induction jobs with
  | nil =>
    intro rs g hnd hs hd
    refine ⟨rfl, ?_, List.Pairwise.nil, fun r hr _ => hr, ?_⟩
    · intro jb' h; exact absurd h (List.not_mem_nil jb')
    · intro jb' h; exact absurd h (List.not_mem_nil jb')
  | cons jb rest ih =>
    intro rs g hnd hs hd
    obtain ⟨F, hmap, hFc, hFt, hFu, hFid⟩ := mxJobStep_map jb rs g
    obtain ⟨hjro, hjc, hjlive⟩ := mxJobStep_job_facts jb rs g
    have hpc := List.pairwise_cons.mp hd
    have hnd1 : ((mxJobStep jb rs g).resources.map (fun r => r.code)).Nodup := by
      rw [hmap, map_code_keep hFc]; exact hnd
    have hs1 : ∀ jb2 ∈ rest, mjSafe jb2 (mxJobStep jb rs g).resources := by
      intro jb2 hjb2
      refine mjSafe_mem_transfer (hs jb2 (List.mem_cons_of_mem _ hjb2)) ?_
      intro r hr hl2 hro
      rw [hmap]
      refine List.mem_map.mpr ⟨r, hr, hFid r ?_⟩
      by_cases hl : mjLive jb
      · right
        intro hEq
        exact (hpc.1 jb2 hjb2 hl hl2) (hEq.trans hro.symm)
      · left; exact hl
    have IH := ih (mxJobStep jb rs g).resources (mxJobStep jb rs g).rng hnd1 hs1 hpc.2
    have hsafe_head : mjSafe (mxJobStep jb rs g).job
        (mxRunGo rest (mxJobStep jb rs g).resources (mxJobStep jb rs g).rng).2.1 := by
      refine mjSafe_mem_transfer
        (mxJobStep_safe jb rs g hnd (hs jb (List.mem_cons_self _ _))) ?_
      intro r hr hl' hro
      apply IH.2.2.2.1 r hr
      intro jb2 hjb2 hl2 hEq
      have h1 : jb.run_on = some r.code := by rw [← hjro]; exact hro
      exact (hpc.1 jb2 hjb2 (hjlive hl') hl2) (h1.trans hEq.symm)
    refine ⟨?_, ?_, ?_, ?_, ?_⟩
    · simp only [mxRunGo]
      rw [IH.1, hmap, map_code_keep hFc]
    · intro jb' hjb'
      simp only [mxRunGo] at hjb' ⊢
      rcases List.mem_cons.mp hjb' with rfl | h'
      · exact hsafe_head
      · exact IH.2.1 jb' h'
    · simp only [mxRunGo, mxDistinct]
      refine List.pairwise_cons.mpr ⟨?_, IH.2.2.1⟩
      intro b' hb' hl hl2
      obtain ⟨b, hbmem, hbro, hbl⟩ := IH.2.2.2.2 b' hb'
      rw [hjro, hbro]
      exact hpc.1 b hbmem (hjlive hl) (hbl hl2)
    · intro r hr hnone
      simp only [mxRunGo]
      apply IH.2.2.2.1
      · rw [hmap]
        refine List.mem_map.mpr ⟨r, hr, hFid r ?_⟩
        by_cases hl : mjLive jb
        · right; exact hnone jb (List.mem_cons_self _ _) hl
        · left; exact hl
      · intro jb2 hjb2 hl2
        exact hnone jb2 (List.mem_cons_of_mem _ hjb2) hl2
    · intro jb' hjb'
      simp only [mxRunGo] at hjb'
      rcases List.mem_cons.mp hjb' with rfl | h'
      · exact ⟨jb, List.mem_cons_self _ _, hjro, hjlive⟩
      · obtain ⟨b, hb, h1, h2⟩ := IH.2.2.2.2 jb' h'
        exact ⟨b, List.mem_cons_of_mem _ hb, h1, h2⟩

/-- Tick-boundary utilization bound for a mixed resource list. -/
def mxUsedOkL (rs : List MResource) : Prop :=
  ∀ r ∈ rs, r.used_time ≤ r.total_time

/-- Mid-tick utilization form between the trace step and the executor: one
tick of slack, or a resource that is not USED (so the executor cannot book
a used tick on it). -/
def mxMidOkL (rs : List MResource) : Prop :=
  ∀ r ∈ rs, r.used_time + 1 ≤ r.total_time ∨
    (r.used_time ≤ r.total_time ∧ r.state ≠ MRSt.USED)

/-- Structural core invariant of a mixed state: distinct resource codes
bounded by the creation counter, pointer safety, and pairwise-distinct
live bindings. -/
def MixedCore (s : MState) : Prop :=
  ((s.resources.map (fun r => r.code)).Nodup ∧
    ∀ r ∈ s.resources, r.code ≤ s.resource_number) ∧
  MixedSafe s ∧ mxDistinct s.jobs

/-- Full mixed invariant at tick boundaries. -/
def MixedInv (s : MState) : Prop :=
  MixedCore s ∧ mxUsedOkL s.resources

/-- The mixed trace step's effect on the resource pool. -/
theorem mxTraceall_resources (s : MState) :
    (mxTraceall s).fst.resources =
      s.resources.map (fun r => { r with total_time := r.total_time + 1 }) := rfl

/-- The mixed trace step's effect on the job pool. -/
theorem mxTraceall_jobs (s : MState) :
    (mxTraceall s).fst.jobs = s.jobs.map mxJobTrace := rfl

/-- The mixed trace step keeps the creation counter. -/
theorem mxTraceall_rn (s : MState) :
    (mxTraceall s).fst.resource_number = s.resource_number := rfl

/-- Aging a job does not change its state. -/
theorem mxJobTrace_state (jb : MJob) : (mxJobTrace jb).state = jb.state := by
  simp only [mxJobTrace]
  split <;> rfl

/-- Aging a job does not change its binding. -/
theorem mxJobTrace_run_on (jb : MJob) : (mxJobTrace jb).run_on = jb.run_on := by
  simp only [mxJobTrace]
  split <;> rfl

/-- Aging a job does not change liveness. -/
theorem mjLive_trace (jb : MJob) : mjLive (mxJobTrace jb) ↔ mjLive jb := by
  simp only [mjLive, mxJobTrace_state]

/-- The mixed trace step preserves the core invariant. -/
theorem mxTrace_core (s : MState) (h : MixedCore s) : MixedCore (mxTraceall s).fst := by
  obtain ⟨⟨hnd, hbd⟩, hsafe, hdist⟩ := h
  refine ⟨⟨?_, ?_⟩, ?_, ?_⟩
  · rw [mxTraceall_resources,
      @map_code_keep (fun r => { r with total_time := r.total_time + 1 })
        (fun x => rfl) s.resources]
    exact hnd
  · intro r' hr'
    rw [mxTraceall_resources] at hr'
    obtain ⟨r, hr, rfl⟩ := List.mem_map.mp hr'
    rw [mxTraceall_rn]
    exact hbd r hr
  · intro jb' hjb'
    rw [mxTraceall_jobs] at hjb'
    obtain ⟨jb, hjb, rfl⟩ := List.mem_map.mp hjb'
    rw [mxTraceall_resources]
    exact mjSafe_congr (mxJobTrace_state jb) (mxJobTrace_run_on jb)
      (mjSafe_map_transfer (fun r => rfl) (fun r => rfl) (hsafe jb hjb))
  · rw [mxTraceall_jobs]
    show (s.jobs.map mxJobTrace).Pairwise
      (fun a b => mjLive a → mjLive b → a.run_on ≠ b.run_on)
    rw [List.pairwise_map]
    refine hdist.imp ?_
    intro a b hab hla hlb heq
    refine hab ((mjLive_trace a).mp hla) ((mjLive_trace b).mp hlb) ?_
    rw [mxJobTrace_run_on, mxJobTrace_run_on] at heq
    exact heq

/-- The mixed trace step establishes the mid-tick slack from the
tick-boundary bound. -/
theorem mxTrace_mid (s : MState) (h : mxUsedOkL s.resources) :
    mxMidOkL (mxTraceall s).fst.resources := by
  rw [mxTraceall_resources]
  intro r hr
  obtain ⟨r0, hr0, rfl⟩ := List.mem_map.mp hr
  exact Or.inl (Nat.add_le_add_right (h r0 hr0) 1)

/-- `add_res` (mixed) appends one fresh resource. -/
theorem mxAddRes_resources (u : MState) :
    (mxAddRes u).resources = u.resources ++
      [⟨u.resource_number + 1, MRSt.AVAILABLE, 1 + (randDraw u.rng).fst % 5, 0, 0⟩] := rfl

/-- `add_res` (mixed) bumps the creation counter. -/
theorem mxAddRes_rn (u : MState) :
    (mxAddRes u).resource_number = u.resource_number + 1 := rfl

/-- `add_res` (mixed) does not touch the job pool. -/
theorem mxAddRes_jobs (u : MState) : (mxAddRes u).jobs = u.jobs := rfl

/-- `add_job` (mixed) does not touch the resource pool. -/
theorem mxAddJob_resources (u : MState) : (mxAddJob u).resources = u.resources := rfl

/-- `add_job` (mixed) appends one fresh WAITING job with no binding. -/
theorem mxAddJob_jobs (u : MState) :
    (mxAddJob u).jobs = u.jobs ++
      [⟨u.job_number + 1, MJSt.WAITING, ((50 + (randDraw u.rng).fst % 950 : Nat) : Int),
        (((randDraw (randDraw u.rng).snd).fst % 30 : Nat) : Int), 0, none⟩] := rfl

/-- `add_res` (mixed) preserves the core invariant. -/
theorem mxAddRes_core (u : MState) (h : MixedCore u) : MixedCore (mxAddRes u) := by
  obtain ⟨⟨hnd, hbd⟩, hsafe, hdist⟩ := h
  refine ⟨⟨?_, ?_⟩, ?_, ?_⟩
  · rw [mxAddRes_resources]
    simp only [List.map_append, List.map_cons, List.map_nil]
    refine List.nodup_append.mpr ⟨hnd, List.nodup_singleton _, ?_⟩
    intro a ha hb
    obtain ⟨r, hr, rfl⟩ := List.mem_map.mp ha
    rw [List.mem_singleton] at hb
    have := hbd r hr
    omega
  · intro r' hr'
    rw [mxAddRes_resources] at hr'
    rw [mxAddRes_rn]
    rcases List.mem_append.mp hr' with hr' | hr'
    · exact Nat.le_succ_of_le (hbd r' hr')
    · rw [List.mem_singleton.mp hr']
  · intro jb hjb
    rw [mxAddRes_jobs] at hjb
    show mjSafe jb (mxAddRes u).resources
    rw [mxAddRes_resources]
    exact mjSafe_mem_transfer (hsafe jb hjb) (fun r hr _ _ => List.mem_append_left _ hr)
  · exact hdist

/-- `add_job` (mixed) preserves the core invariant: the fresh job is
WAITING, hence neither live nor bound. -/
theorem mxAddJob_core (u : MState) (h : MixedCore u) : MixedCore (mxAddJob u) := by
  obtain ⟨⟨hnd, hbd⟩, hsafe, hdist⟩ := h
  refine ⟨⟨hnd, fun r hr => hbd r hr⟩, ?_, ?_⟩
  · intro jb hjb
    rw [mxAddJob_jobs] at hjb
    rcases List.mem_append.mp hjb with hjb | hjb
    · exact hsafe jb hjb
    · rw [List.mem_singleton.mp hjb]
      constructor
      · intro hst
        exact absurd hst (by simp)
      · intro hst
        exact absurd hst (by simp)
  · show mxDistinct (mxAddJob u).jobs
    rw [mxAddJob_jobs]
    refine List.pairwise_append.mpr ⟨hdist, ?_, ?_⟩
    · exact List.Pairwise.cons (fun b hb => absurd hb (List.not_mem_nil b)) List.Pairwise.nil
    · intro a ha b hb
      rw [List.mem_singleton.mp hb]
      intro _ hlb
      rcases hlb with hx | hx <;> exact absurd hx (by simp)

/-- Removing DONE jobs preserves the core invariant. -/
theorem mxRemoveJobs_core (u : MState) (h : MixedCore u) :
    MixedCore { u with jobs := u.jobs.filter (fun jb => jb.state ≠ MJSt.DONE) } := by
  obtain ⟨hc, hsafe, hdist⟩ := h
  refine ⟨hc, ?_, ?_⟩
  · intro jb hjb
    exact hsafe jb (List.mem_filter.mp hjb).1
  · exact List.Pairwise.sublist (List.filter_sublist _) hdist

/-- Safety survives dropping LEAVING resources: the witnesses are in
RECEIVING_DATA or USED, never LEAVING. -/
theorem mjSafe_filter_leaving {jb : MJob} {rs : List MResource}
    (hs : mjSafe jb rs) :
    mjSafe jb (rs.filter (fun r => r.state ≠ MRSt.LEAVING)) := by
  constructor
  · intro h
    obtain ⟨r, hr, hro, hst⟩ := hs.1 h
    exact ⟨r, List.mem_filter.mpr ⟨hr, by simp [hst]⟩, hro, hst⟩
  · intro h
    obtain ⟨r, hr, hro, hst⟩ := hs.2 h
    exact ⟨r, List.mem_filter.mpr ⟨hr, by simp [hst]⟩, hro, hst⟩

/-- Removing LEAVING resources preserves the core invariant. -/
theorem mxRemoveRes_core (u : MState) (h : MixedCore u) :
    MixedCore { u with resources :=
      u.resources.filter (fun r => r.state ≠ MRSt.LEAVING) } := by
  obtain ⟨⟨hnd, hbd⟩, hsafe, hdist⟩ := h
  refine ⟨⟨?_, ?_⟩, ?_, hdist⟩
  · exact List.Nodup.sublist (List.Sublist.map _ (List.filter_sublist _)) hnd
  · intro r hr
    exact hbd r (List.mem_filter.mp hr).1
  · intro jb hjb
    exact mjSafe_filter_leaving (hsafe jb hjb)

/-- Appending a fresh AVAILABLE zero-counter resource keeps the mid-tick
form. -/
theorem mxMidOkL_append (rs : List MResource) (r0 : MResource)
    (h : mxMidOkL rs) (h0 : r0.used_time = 0) (hst : r0.state = MRSt.AVAILABLE) :
    mxMidOkL (rs ++ [r0]) := by
  intro r hr
  rcases List.mem_append.mp hr with hr | hr
  · exact h r hr
  · rw [List.mem_singleton.mp hr]
    right
    refine ⟨by omega, ?_⟩
    rw [hst]
    intro hc
    cases hc

/-- Filtering keeps the mid-tick form. -/
theorem mxMidOkL_filter (rs : List MResource) (p : MResource → Bool)
    (h : mxMidOkL rs) : mxMidOkL (rs.filter p) :=
  fun r hr => h r (List.mem_filter.mp hr).1

/-- The mixed admission step preserves the core invariant and the mid-tick
utilization form (fresh resources enter AVAILABLE with zero counters;
removal only drops entries; the fresh job is unbound). -/
theorem mxAddRemove_core_mid (s : MState) (hc : MixedCore s) (hm : mxMidOkL s.resources) :
    MixedCore (mxAddRemove s) ∧ mxMidOkL (mxAddRemove s).resources := by
  have hseed : ∀ u : MState, MixedCore u → mxMidOkL u.resources →
      MixedCore (mxAddRes u) ∧ mxMidOkL (mxAddRes u).resources := by
    intro u h1 h2
    refine ⟨mxAddRes_core u h1, ?_⟩
    rw [mxAddRes_resources]
    exact mxMidOkL_append _ _ h2 rfl rfl
  have h5 : MixedCore (if s.begin_flag then
      { mxAddRes (mxAddRes (mxAddRes (mxAddRes (mxAddRes s)))) with
        begin_flag := false } else s) ∧
      mxMidOkL (if s.begin_flag then
      { mxAddRes (mxAddRes (mxAddRes (mxAddRes (mxAddRes s)))) with
        begin_flag := false } else s).resources := by
    by_cases hb : s.begin_flag = true
    · rw [if_pos hb]
      have g1 := hseed s hc hm
      have g2 := hseed _ g1.1 g1.2
      have g3 := hseed _ g2.1 g2.2
      have g4 := hseed _ g3.1 g3.2
      have g5 := hseed _ g4.1 g4.2
      exact ⟨g5.1, g5.2⟩
    · rw [if_neg hb]
      exact ⟨hc, hm⟩
  have hD := mxRemoveRes_core _ (mxRemoveJobs_core _ h5.1)
  have hDm := mxMidOkL_filter _ (fun r => decide (r.state ≠ MRSt.LEAVING)) h5.2
  simp only [mxAddRemove]
  split
  · refine ⟨mxAddRes_core _ ?_, ?_⟩
    · exact hD
    · rw [mxAddRes_resources]
      refine mxMidOkL_append _ _ ?_ rfl rfl
      exact hDm
  · refine ⟨mxAddJob_core _ ?_, ?_⟩
    · exact hD
    · rw [mxAddJob_resources]
      exact hDm
  · exact ⟨hD, hDm⟩

/-- The mixed executor preserves the core invariant and restores the
tick-boundary utilization bound from the mid-tick form: at most one used
tick per resource (distinct live bindings), and none on resources that are
not USED. -/
theorem mxRunSend_core_used (s : MState) (hc : MixedCore s) (hm : mxMidOkL s.resources) :
    MixedCore (mxRunSend s) ∧ mxUsedOkL (mxRunSend s).resources := by
  obtain ⟨⟨hnd, hbd⟩, hsafe, hdist⟩ := hc
  have K := mxRunGo_core s.jobs s.resources s.rng hnd hsafe hdist
  constructor
  · refine ⟨⟨?_, ?_⟩, ?_, ?_⟩
    · show ((mxRunGo s.jobs s.resources s.rng).2.1.map (fun r => r.code)).Nodup
      rw [K.1]
      exact hnd
    · intro r' hr'
      show r'.code ≤ s.resource_number
      have hmem : r'.code ∈ (mxRunGo s.jobs s.resources s.rng).2.1.map (fun r => r.code) :=
        List.mem_map.mpr ⟨r', hr', rfl⟩
      rw [K.1] at hmem
      obtain ⟨r, hr, hcode⟩ := List.mem_map.mp hmem
      rw [← hcode]
      exact hbd r hr
    · intro jb' hjb'
      exact K.2.1 jb' hjb'
    · exact K.2.2.1
  · intro r' hr'
    obtain ⟨r, hr, hceq, hteq, hule⟩ := mxRunGo_used s.jobs s.resources s.rng r' hr'
    have hcnt := countRun_le_one s.jobs r.code hdist
    rcases hm r hr with h1 | ⟨h2, h3⟩
    · rw [hteq]
      omega
    · have hz := countRun_zero hnd hsafe hr h3
      rw [hteq]
      omega

/-- Characterisation of a successful first-index search: the list splits at
the found element, the index counts from the accumulator, the element
satisfies the predicate and everything before it fails it. -/
theorem firstIdxGo_split {α : Type} (p : α → Bool) :
    ∀ (l : List α) (k0 k : Nat) (x : α), firstIdxGo p k0 l = some (k, x) →
      ∃ l1 l2, l = l1 ++ x :: l2 ∧ k = k0 + l1.length ∧ p x = true ∧
        ∀ y ∈ l1, p y = false := by
  intro l
  induction l with
  | nil => intro k0 k x h; cases h
  | cons a t ih =>
    intro k0 k x h
    simp only [firstIdxGo] at h
    by_cases hp : p a = true
    · rw [if_pos hp] at h
      injection h with h
      injection h with h1 h2
      subst h1
      subst h2
      exact ⟨[], t, rfl, by simp, hp, fun y hy => absurd hy (List.not_mem_nil y)⟩
    · rw [if_neg hp] at h
      obtain ⟨l1, l2, hsp, hk, hx, hall⟩ := ih (k0 + 1) k x h
      refine ⟨a :: l1, l2, by rw [hsp]; rfl, ?_, hx, ?_⟩
      · rw [List.length_cons]
        omega
      · intro y hy
        rcases List.mem_cons.mp hy with rfl | hy'
        · simpa using hp
        · exact hall y hy'

/-- Rewriting at the length of the left part hits the split point. -/
theorem modifyAt_append {α : Type} (f : α → α) :
    ∀ (l1 : List α) (x : α) (l2 : List α),
      modifyAt l1.length f (l1 ++ x :: l2) = l1 ++ f x :: l2 := by
  intro l1
  induction l1 with
  | nil => intro x l2; rfl
  | cons a t ih =>
    intro x l2
    simp only [List.length_cons, List.cons_append, modifyAt]
    exact congrArg (fun l => a :: l) (ih x l2)

/-- Lookup at the length of the left part returns the split element. -/
theorem get_of_append {α : Type} :
    ∀ (l1 : List α) (x : α) (l2 : List α), (l1 ++ x :: l2).get? l1.length = some x := by
  intro l1
  induction l1 with
  | nil => intro x l2; rfl
  | cons a t ih =>
    intro x l2
    rw [List.cons_append, List.length_cons, List.get?_cons_succ]
    exact ih x l2

/-- A successful lookup splits the list at its index. -/
theorem get_split {α : Type} :
    ∀ (l : List α) (i : Nat) (x : α), l.get? i = some x →
      ∃ l1 l2, l = l1 ++ x :: l2 ∧ l1.length = i := by
  intro l
  induction l with
  | nil => intro i x h; cases h
  | cons a t ih =>
    intro i x h
    cases i with
    | zero =>
      rw [List.get?_cons_zero] at h
      injection h with h
      subst h
      exact ⟨[], t, rfl, rfl⟩
    | succ n =>
      rw [List.get?_cons_succ] at h
      obtain ⟨l1, l2, h1, h2⟩ := ih n x h
      exact ⟨a :: l1, l2, by rw [h1]; rfl, by rw [List.length_cons, h2]⟩

/-- Dropping to a cons pins the lookup at that position and the further
drop. -/
theorem drop_head_get {α : Type} :
    ∀ (l : List α) (k : Nat) (a : α) (t : List α), l.drop k = a :: t →
      l.get? k = some a ∧ l.drop (k + 1) = t := by
  intro l
  induction l with
  | nil =>
    intro k a t h
    rw [List.drop_nil] at h
    cases h
  | cons x rest ih =>
    intro k a t h
    cases k with
    | zero =>
      rw [List.drop_zero] at h
      injection h with h1 h2
      subst h1
      subst h2
      exact ⟨rfl, rfl⟩
    | succ n =>
      rw [List.drop_succ_cons] at h
      obtain ⟨h1, h2⟩ := ih n a t h
      rw [List.get?_cons_succ, List.drop_succ_cons]
      exact ⟨h1, h2⟩

/-- The mixed selection loop always lands on a WAITING job, given that the
default candidate index holds one: the candidate index only ever moves to
positions whose job is WAITING. -/
theorem mxBestGo_get :
    ∀ (l : List MJob) (jobs : List MJob) (bi : Nat) (bs : Int) (k : Nat),
      jobs.drop k = l →
      (∃ jb0, jobs.get? bi = some jb0 ∧ jb0.state = MJSt.WAITING) →
      ∃ jb1, jobs.get? (mxBestGo bi bs k l) = some jb1 ∧ jb1.state = MJSt.WAITING := by
  intro l
  induction l with
  | nil =>
    intro jobs bi bs k _ h
    exact h
  | cons jb rest ih =>
    intro jobs bi bs k hdrop h
    obtain ⟨hget, hdrop'⟩ := drop_head_get jobs k jb rest hdrop
    simp only [mxBestGo]
    by_cases hc : jb.state = MJSt.WAITING ∧ bs < mxScore jb
    · rw [if_pos hc]
      exact ih jobs k bs (k + 1) hdrop' ⟨jb, hget, hc.1⟩
    · rw [if_neg hc]
      exact ih jobs bi bs (k + 1) hdrop' h

/-- No live job can be bound to an AVAILABLE resource: the safety witness
states are RECEIVING_DATA and USED, and codes are distinct. -/
theorem mjSafe_avail_not_target {jb : MJob} {rs : List MResource} {r0 : MResource}
    (hnd : (rs.map (fun r => r.code)).Nodup) (hr0 : r0 ∈ rs)
    (hA : r0.state = MRSt.AVAILABLE) (hs : mjSafe jb rs) (hl : mjLive jb) :
    jb.run_on ≠ some r0.code := by
  intro heq
  rcases hl with h | h
  · obtain ⟨rb, hrb, hro, hstb⟩ := hs.1 h
    rw [heq] at hro
    injection hro with hro
    have hEq : rb = r0 := code_inj hnd hrb hr0 hro.symm
    rw [hEq, hA] at hstb
    cases hstb
  · obtain ⟨rb, hrb, hro, hstb⟩ := hs.2 h
    rw [heq] at hro
    injection hro with hro
    have hEq : rb = r0 := code_inj hnd hrb hr0 hro.symm
    rw [hEq, hA] at hstb
    cases hstb

/-- The mixed scheduler preserves the core invariant and the tick-boundary
utilization bound: it only moves one WAITING job to SENDING_DATA bound to
the first AVAILABLE resource's code and that resource to RECEIVING_DATA. -/
theorem mxSchedule_core_used (s : MState) (hc : MixedCore s) (hu : mxUsedOkL s.resources) :
    MixedCore (mxSchedule s) ∧ mxUsedOkL (mxSchedule s).resources := by
  obtain ⟨⟨hnd, hbd⟩, hsafe, hdist⟩ := hc
  cases hr : firstIdxGo (fun r => r.state = MRSt.AVAILABLE) 0 s.resources with
  | none =>
    simp only [mxSchedule, hr]
    exact ⟨⟨⟨hnd, hbd⟩, hsafe, hdist⟩, hu⟩
  | some pr =>
    rcases pr with ⟨ri, r0⟩
    cases hj : firstIdxGo (fun jb => jb.state = MJSt.WAITING) 0 s.jobs with
    | none =>
      simp only [mxSchedule, hr, hj]
      exact ⟨⟨⟨hnd, hbd⟩, hsafe, hdist⟩, hu⟩
    | some pj =>
      rcases pj with ⟨ji, j0⟩
      obtain ⟨p1, p2, hrs, hri, hr0A', hp1⟩ := firstIdxGo_split _ s.resources 0 ri r0 hr
      have hr0A : r0.state = MRSt.AVAILABLE := of_decide_eq_true hr0A'
      have hr0mem : r0 ∈ s.resources := by
        rw [hrs]
        exact List.mem_append_right _ (List.mem_cons_self _ _)
      obtain ⟨q1, q2, hjs, hji, hj0W', hq1⟩ := firstIdxGo_split _ s.jobs 0 ji j0 hj
      have hjget : s.jobs.get? ji = some j0 := by
        rw [hji, Nat.zero_add, hjs]
        exact get_of_append q1 j0 q2
      obtain ⟨jb1, hbget, hbW⟩ := mxBestGo_get (s.jobs.drop ji) s.jobs ji (mxScore j0) ji
        rfl ⟨j0, hjget, of_decide_eq_true hj0W'⟩
      obtain ⟨q1', q2', hbs, hblen⟩ := get_split s.jobs _ jb1 hbget
      have hq1'sub : ∀ a ∈ q1', a ∈ s.jobs := by
        intro a ha
        rw [hbs]
        exact List.mem_append_left _ ha
      have hq2'sub : ∀ a ∈ q2', a ∈ s.jobs := by
        intro a ha
        rw [hbs]
        exact List.mem_append_right _ (List.mem_cons_of_mem _ ha)
      have hjb1mem : jb1 ∈ s.jobs := by
        rw [hbs]
        exact List.mem_append_right _ (List.mem_cons_self _ _)
      have htrans : ∀ jb2 : MJob, mjSafe jb2 s.resources →
          mjSafe jb2 (p1 ++ { r0 with state := MRSt.RECEIVING_DATA } :: p2) := by
        intro jb2 h2
        constructor
        · intro hst
          obtain ⟨rb, hrb, hro, hstb⟩ := h2.1 hst
          rw [hrs] at hrb
          rcases List.mem_append.mp hrb with h' | h'
          · exact ⟨rb, List.mem_append_left _ h', hro, hstb⟩
          · rcases List.mem_cons.mp h' with rfl | h''
            · exfalso
              rw [hr0A] at hstb
              cases hstb
            · exact ⟨rb, List.mem_append_right _ (List.mem_cons_of_mem _ h''), hro, hstb⟩
        · intro hst
          obtain ⟨rb, hrb, hro, hstb⟩ := h2.2 hst
          rw [hrs] at hrb
          rcases List.mem_append.mp hrb with h' | h'
          · exact ⟨rb, List.mem_append_left _ h', hro, hstb⟩
          · rcases List.mem_cons.mp h' with rfl | h''
            · exfalso
              rw [hr0A] at hstb
              cases hstb
            · exact ⟨rb, List.mem_append_right _ (List.mem_cons_of_mem _ h''), hro, hstb⟩
      have hcodes_eq : (p1 ++ { r0 with state := MRSt.RECEIVING_DATA } :: p2).map
          (fun r => r.code) = s.resources.map (fun r => r.code) := by
        rw [hrs]
        simp only [List.map_append, List.map_cons]
      have hnotgt : ∀ a ∈ s.jobs, mjLive a → a.run_on ≠ some r0.code := by
        intro a ha hla
        exact mjSafe_avail_not_target hnd hr0mem hr0A (hsafe a ha) hla
      rw [hbs] at hdist
      have hparts := List.pairwise_append.mp hdist
      have hcons := List.pairwise_cons.mp hparts.2.1
      simp only [mxSchedule, hr, hj]
      rw [← hblen, hbs, hri, Nat.zero_add, hrs, modifyAt_append, modifyAt_append]
      refine ⟨⟨⟨?_, ?_⟩, ?_, ?_⟩, ?_⟩
      · show ((p1 ++ { r0 with state := MRSt.RECEIVING_DATA } :: p2).map
          (fun r => r.code)).Nodup
        rw [hcodes_eq]
        exact hnd
      · intro r' hr'
        show r'.code ≤ s.resource_number
        have hmem : r'.code ∈ (p1 ++ { r0 with state := MRSt.RECEIVING_DATA } :: p2).map
            (fun r => r.code) := List.mem_map.mpr ⟨r', hr', rfl⟩
        rw [hcodes_eq] at hmem
        obtain ⟨rb, hrb, hcode⟩ := List.mem_map.mp hmem
        rw [← hcode]
        exact hbd rb hrb
      · intro jb' hjb'
        show mjSafe jb' (p1 ++ { r0 with state := MRSt.RECEIVING_DATA } :: p2)
        have hjb'' : jb' ∈ q1' ++
            { jb1 with run_on := some r0.code, state := MJSt.SENDING_DATA } :: q2' := hjb'
        rcases List.mem_append.mp hjb'' with h' | h'
        · exact htrans jb' (hsafe jb' (hq1'sub jb' h'))
        · rcases List.mem_cons.mp h' with rfl | h''
          · constructor
            · intro _
              exact ⟨{ r0 with state := MRSt.RECEIVING_DATA },
                List.mem_append_right _ (List.mem_cons_self _ _), rfl, rfl⟩
            · intro hst
              exact absurd hst (by simp)
          · exact htrans jb' (hsafe jb' (hq2'sub jb' h''))
      · show mxDistinct (q1' ++
          { jb1 with run_on := some r0.code, state := MJSt.SENDING_DATA } :: q2')
        refine List.pairwise_append.mpr ⟨hparts.1, ?_, ?_⟩
        · refine List.pairwise_cons.mpr ⟨?_, hcons.2⟩
          intro b hb _ hlb heq
          exact hnotgt b (hq2'sub b hb) hlb heq.symm
        · intro a ha b hb
          rcases List.mem_cons.mp hb with rfl | hb'
          · intro hla _ heq
            exact hnotgt a (hq1'sub a ha) hla heq
          · exact hparts.2.2 a ha b (List.mem_cons_of_mem _ hb')
      · intro r' hr'
        have hr'' : r' ∈ p1 ++ { r0 with state := MRSt.RECEIVING_DATA } :: p2 := hr'
        rcases List.mem_append.mp hr'' with h' | h'
        · refine hu r' ?_
          rw [hrs]
          exact List.mem_append_left _ h'
        · rcases List.mem_cons.mp h' with rfl | h''
          · show r0.used_time ≤ r0.total_time
            exact hu r0 hr0mem
          · refine hu r' ?_
            rw [hrs]
            exact List.mem_append_right _ (List.mem_cons_of_mem _ h'')

/-- One mixed tick preserves the full invariant. -/
theorem mxTick_inv {s s' : MState} (ht : mxTick s = some s') (h : MixedInv s) :
    MixedInv s' := by
  simp only [mxTick] at ht
  by_cases hex : (mxTraceall s).snd = true
  · rw [if_pos hex] at ht
    cases ht
  · rw [if_neg hex] at ht
    injection ht with ht
    subst ht
    have h1 : MixedCore (mxTraceall s).fst := mxTrace_core s h.1
    have h1m : mxMidOkL (mxTraceall s).fst.resources := mxTrace_mid s h.2
    have h2 := mxAddRemove_core_mid (mxTraceall s).fst h1 h1m
    have h3 := mxRunSend_core_used _ h2.1 h2.2
    exact mxSchedule_core_used _ h3.1 h3.2

/-- Every reachable mixed state satisfies the full invariant. -/
theorem mxReach_inv {s : MState} (h : MixedReach s) : MixedInv s := by
  induction h with
  | init g =>
    exact ⟨⟨⟨List.nodup_nil, fun r hr => absurd hr (List.not_mem_nil r)⟩,
      fun jb hjb => absurd hjb (List.not_mem_nil jb), List.Pairwise.nil⟩,
      fun r hr => absurd hr (List.not_mem_nil r)⟩
  | step _ ht ih => exact mxTick_inv ht ih

/-- In one mixed executor step, a resource can only newly turn LEAVING if
the stepped job completed (went DONE) in that very step while bound to it. -/
theorem mxJobStep_leaving (jb : MJob) (rs : List MResource) (g : List Nat) :
    ∀ r' ∈ (mxJobStep jb rs g).resources, r'.state = MRSt.LEAVING →
      (∃ r ∈ rs, r'.code = r.code ∧ r.state = MRSt.LEAVING) ∨
      ((mxJobStep jb rs g).job.state = MJSt.DONE ∧ jb.run_on = some r'.code) := by
  obtain ⟨jc, jst, jw, jsd, jwt, jro⟩ := jb
  cases jst with
  | WAITING => exact fun r' hr' hst => Or.inl ⟨r', hr', rfl, hst⟩
  | DONE => exact fun r' hr' hst => Or.inl ⟨r', hr', rfl, hst⟩
  | SENDING_DATA =>
    intro r' hr' hst
    simp only [mxJobStep] at hr'
    by_cases hsd : jsd - 1 ≤ 0
    · rw [if_pos hsd] at hr'
      cases jro with
      | none => exact Or.inl ⟨r', hr', rfl, hst⟩
      | some c =>
        simp only at hr'
        obtain ⟨r, hr, hre⟩ := List.mem_map.mp hr'
        by_cases hrc : r.code = c
        · rw [if_pos hrc] at hre
          rw [← hre] at hst
          cases hst
        · rw [if_neg hrc] at hre
          exact Or.inl ⟨r, hr, by rw [← hre], by rw [← hre] at hst; exact hst⟩
    · rw [if_neg hsd] at hr'
      exact Or.inl ⟨r', hr', rfl, hst⟩
  | RUNNING =>
    intro r' hr' hst
    simp only [mxJobStep] at hr' ⊢
    cases jro with
    | none => exact Or.inl ⟨r', hr', rfl, hst⟩
    | some c =>
      simp only at hr' ⊢
      cases hf : findRes c rs with
      | none =>
        rw [hf] at hr'
        exact Or.inl ⟨r', hr', rfl, hst⟩
      | some rb =>
        rw [hf] at hr'
        simp only at hr'
        by_cases hw : jw - (rb.level : Int) ≤ 0
        · rw [if_pos hw] at hr'
          rcases hg : randDraw g with ⟨d, g2⟩
          rw [hg] at hr'
          simp only at hr'
          by_cases hd : d % 1000 ≤ RL_PROB
          · rw [if_pos hd] at hr'
            obtain ⟨r1, hr1, hre⟩ := List.mem_map.mp hr'
            obtain ⟨r2, hr2, hre2⟩ := List.mem_map.mp hr1
            obtain ⟨r3, hr3, hre3⟩ := List.mem_map.mp hr2
            by_cases hrc : r3.code = c
            · right
              simp only [if_pos hw, if_pos hd]
              refine ⟨by trivial, ?_⟩
              rw [if_pos hrc] at hre3
              rw [← hre3] at hre2
              simp only at hre2
              rw [if_pos hrc] at hre2
              rw [← hre2] at hre
              simp only at hre
              rw [if_pos hrc] at hre
              rw [← hre]
              simp only [hrc]
            · rw [if_neg hrc] at hre3
              rw [← hre3] at hre2
              rw [if_neg hrc] at hre2
              rw [← hre2] at hre
              rw [if_neg hrc] at hre
              exact Or.inl ⟨r3, hr3, by rw [← hre], by rw [← hre] at hst; exact hst⟩
          · rw [if_neg hd] at hr'
            obtain ⟨r1, hr1, hre⟩ := List.mem_map.mp hr'
            obtain ⟨r2, hr2, hre2⟩ := List.mem_map.mp hr1
            by_cases hrc : r2.code = c
            · rw [if_pos hrc] at hre2
              rw [← hre2] at hre
              simp only at hre
              rw [if_pos hrc] at hre
              rw [← hre] at hst
              cases hst
            · rw [if_neg hrc] at hre2
              rw [← hre2] at hre
              rw [if_neg hrc] at hre
              exact Or.inl ⟨r2, hr2, by rw [← hre], by rw [← hre] at hst; exact hst⟩
        · rw [if_neg hw] at hr'
          obtain ⟨r1, hr1, hre⟩ := List.mem_map.mp hr'
          by_cases hrc : r1.code = c
          · rw [if_pos hrc] at hre
            rw [← hre] at hst
            simp only at hst
            exact Or.inl ⟨r1, hr1, by rw [← hre], hst⟩
          · rw [if_neg hrc] at hre
            exact Or.inl ⟨r1, hr1, by rw [← hre], by rw [← hre] at hst; exact hst⟩

/-- The AR state after the first tick on `c7draws`: the five seeded
resources plus one added by the creation draw, all with zero counters. -/
def c7s1 : ARState :=
  { resources := [⟨1, ARRSt.AVAILABLE, 1, 0, 0, 0, []⟩, ⟨2, ARRSt.AVAILABLE, 1, 0, 0, 0, []⟩,
      ⟨3, ARRSt.AVAILABLE, 1, 0, 0, 0, []⟩, ⟨4, ARRSt.AVAILABLE, 1, 0, 0, 0, []⟩,
      ⟨5, ARRSt.AVAILABLE, 1, 0, 0, 0, []⟩, ⟨6, ARRSt.AVAILABLE, 1, 0, 0, 0, []⟩],
    jobs := [], resource_number := 6, job_number := 0, jobs_done := 0,
    rng := [], begin_flag := false }

/-- The first resource of `c7s1`. -/
def c7r1 : ARResource := ⟨1, ARRSt.AVAILABLE, 1, 0, 0, 0, []⟩

/-- The mixed state after the first tick on `c10draws`: five seeded
resources, one job bound by the scheduler to the first one. -/
def c10s1 : MState :=
  { resources := [⟨1, MRSt.RECEIVING_DATA, 1, 0, 0⟩, ⟨2, MRSt.AVAILABLE, 1, 0, 0⟩,
      ⟨3, MRSt.AVAILABLE, 1, 0, 0⟩, ⟨4, MRSt.AVAILABLE, 1, 0, 0⟩, ⟨5, MRSt.AVAILABLE, 1, 0, 0⟩],
    jobs := [⟨1, MJSt.SENDING_DATA, 50, 0, 0, some 1⟩],
    resource_number := 5, job_number := 1, jobs_done := 0, rng := [], begin_flag := false }

/-- The first resource of `c10s1`, bound to the transferring job. -/
def c10r1 : MResource := ⟨1, MRSt.RECEIVING_DATA, 1, 0, 0⟩

/-- A RUNNING job about to complete on its level-5 resource. -/
def c10jr : MJob := ⟨1, MJSt.RUNNING, 1, 0, 0, some 1⟩

/-- A one-resource pool serving `c10jr`. -/
def c10rs : List MResource := [⟨1, MRSt.USED, 5, 3, 2⟩]

/-- The resource of `c10rs` after the completing step drew a departure. -/
def c10lv : MResource := ⟨1, MRSt.LEAVING, 5, 3, 3⟩

/-- `c7s1` is reached after one tick from process start. -/
theorem c7s1_reach : ARReach c7s1 :=
  ARReach.step (ARReach.init c7draws) (by decide)

/-- `c10s1` is reached after one tick from process start. -/
theorem c10s1_reach : MixedReach c10s1 :=
  MixedReach.step (MixedReach.init c10draws) (by decide)

/-- C7: in both variants every reachable state satisfies
`used_time ≤ total_time` for every pooled resource; the trace step gives
every resource exactly one `total_time` tick; the executor books at most
one `used_time` tick per resource per pass (for the AR variant
unconditionally per resource step, for the mixed variant on the executor
input of any reachable tick); and a freshly created resource starts with
both counters at zero. -/
theorem spec_c7_used_le_total :
    (∀ s : ARState, ARReach s → ∀ r ∈ s.resources, r.used_time ≤ r.total_time) ∧
    (∀ s : MState, MixedReach s → ∀ r ∈ s.resources, r.used_time ≤ r.total_time) ∧
    (∀ s : ARState, (arTraceall s).fst.resources =
      s.resources.map (fun r => { r with total_time := r.total_time + 1 })) ∧
    (∀ s : MState, (mxTraceall s).fst.resources =
      s.resources.map (fun r => { r with total_time := r.total_time + 1 })) ∧
    (∀ (pool : List ARJob) (res : ARResource) (g : List Nat),
      (arResStep pool res g).res.used_time ≤ res.used_time + 1 ∧
      (arResStep pool res g).res.total_time = res.total_time) ∧
    (∀ s : MState, MixedReach s → ∀ r' ∈ (mxRunSend (mxPreExec s)).resources,
      ∃ r ∈ (mxPreExec s).resources, r'.code = r.code ∧ r'.total_time = r.total_time ∧
        r'.used_time ≤ r.used_time + 1) ∧
    (∀ u : ARState, ∃ t : ARResource, (arAddRes u).resources = u.resources ++ [t] ∧
      t.used_time = 0 ∧ t.total_time = 0) ∧
    (∀ u : MState, ∃ t : MResource, (mxAddRes u).resources = u.resources ++ [t] ∧
      t.used_time = 0 ∧ t.total_time = 0) := by
  refine ⟨fun s h => arReach_used h, fun s h => (mxReach_inv h).2,
    fun s => arTraceall_resources s, fun s => mxTraceall_resources s,
    fun pool res g => ⟨(arResStep_res_bound pool res g).2.1,
      (arResStep_res_bound pool res g).1⟩, ?_,
    fun u => ⟨_, arAddRes_resources u, rfl, rfl⟩,
    fun u => ⟨_, mxAddRes_resources u, rfl, rfl⟩⟩
  intro s hs r' hr'
  have hinv := mxReach_inv hs
  have hc2 := mxAddRemove_core_mid (mxTraceall s).fst (mxTrace_core s hinv.1)
    (mxTrace_mid s hinv.2)
  obtain ⟨r, hr, hceq, hteq, hule⟩ := mxRunGo_used (mxPreExec s).jobs
    (mxPreExec s).resources (mxPreExec s).rng r' hr'
  have hcnt := countRun_le_one (mxPreExec s).jobs r.code hc2.1.2.2
  exact ⟨r, hr, hceq, hteq, by omega⟩

/-- Witness for C7 at the states one tick from process start: a concrete
pooled resource of each variant satisfies the bound. -/
theorem spec_c7_used_le_total_witness :
    (c7r1 ∈ c7s1.resources ∧ c7r1.used_time ≤ c7r1.total_time) ∧
    (c10r1 ∈ c10s1.resources ∧ c10r1.used_time ≤ c10r1.total_time) :=
  ⟨⟨by decide, spec_c7_used_le_total.1 c7s1 c7s1_reach c7r1 (by decide)⟩,
   ⟨by decide, spec_c7_used_le_total.2.1 c10s1 c10s1_reach c10r1 (by decide)⟩⟩

/-- C10: in every reachable mixed state, pointer safety holds at the tick
boundary and on the executor's input state (every SENDING_DATA job's
`run_on` resolves in the pool to a RECEIVING_DATA resource and every
RUNNING job's to a USED resource, so the executor never dereferences a
dangling `run_on`); and in any single executor step a resource only newly
turns LEAVING when the stepped job goes DONE while bound to it. -/
theorem spec_c10_run_on_safety :
    (∀ s : MState, MixedReach s →
      MixedSafe s ∧ MixedSafe (mxPreExec s) ∧
      ∀ jb ∈ (mxPreExec s).jobs, mjLive jb →
        ∃ c r, jb.run_on = some c ∧ findRes c (mxPreExec s).resources = some r ∧
          (jb.state = MJSt.SENDING_DATA → r.state = MRSt.RECEIVING_DATA) ∧
          (jb.state = MJSt.RUNNING → r.state = MRSt.USED)) ∧
    (∀ (jb : MJob) (rs : List MResource) (g : List Nat),
      ∀ r' ∈ (mxJobStep jb rs g).resources, r'.state = MRSt.LEAVING →
        (∃ r ∈ rs, r'.code = r.code ∧ r.state = MRSt.LEAVING) ∨
        ((mxJobStep jb rs g).job.state = MJSt.DONE ∧ jb.run_on = some r'.code)) := by
  refine ⟨?_, mxJobStep_leaving⟩
  intro s hs
  have hinv := mxReach_inv hs
  have hc2 := mxAddRemove_core_mid (mxTraceall s).fst (mxTrace_core s hinv.1)
    (mxTrace_mid s hinv.2)
  have hnd : ((mxPreExec s).resources.map (fun r => r.code)).Nodup := hc2.1.1.1
  refine ⟨hinv.1.2.1, hc2.1.2.1, ?_⟩
  intro jb hjb hl
  have hsafe := hc2.1.2.1 jb hjb
  rcases hl with h | h
  · obtain ⟨r, hr, hro, hst⟩ := hsafe.1 h
    exact ⟨r.code, r, hro, findRes_nodup hnd hr rfl, fun _ => hst,
      fun hrun => absurd (h.symm.trans hrun) (by decide)⟩
  · obtain ⟨r, hr, hro, hst⟩ := hsafe.2 h
    exact ⟨r.code, r, hro, findRes_nodup hnd hr rfl,
      fun hsend => absurd (h.symm.trans hsend) (by decide), fun _ => hst⟩

/-- Witness for C10: safety at the concrete reachable state `c10s1` and on
its executor input, and a concrete completing step in which the stepped
job goes DONE exactly as its resource turns LEAVING. -/
theorem spec_c10_run_on_safety_witness :
    MixedSafe c10s1 ∧ MixedSafe (mxPreExec c10s1) ∧
    ((mxJobStep c10jr c10rs [0]).job.state = MJSt.DONE ∧
      c10jr.run_on = some c10lv.code) :=
  ⟨(spec_c10_run_on_safety.1 c10s1 c10s1_reach).1,
   (spec_c10_run_on_safety.1 c10s1 c10s1_reach).2.1,
   (spec_c10_run_on_safety.2 c10jr c10rs [0] c10lv (by decide)
     (by decide)).resolve_left (by decide)⟩
